import Mathlib

/-!
# go-chatwork: the incremental synchronisation engine

A shallow embedding of `chatwork.go` (types `Chatwork`, `Person`, `Room`, `Chat`;
methods `New`, `Login`, `GetUpdate`, `GetAccountInfo`) and theorems about it.

Modelling conventions
* `int64` values are `Int`; the only arithmetic in the code, `epoch-60`, is wrapped
  to 64 bits by `wrap64`.
* The caches `map[string]*Person` and `map[string]*Room` are only ever indexed and
  assigned by key, so they are functions `String → Option _`; `put` is `m[k] = v`.
  The room pointer held by a `Chat` is represented by the key it is stored under.
* Maps that the code ranges over (decoded responses) are lists of key/value pairs,
  in the order in which the `range` loop visits them.
* The transport (`post`) and the clock (`time.Now`) are the environment `Env`: each
  answer is a function of the whole history of requests and clock reads so far, and
  every call appends its `Event` to that history.
* A Go result pair `(value, error)` is a Lean pair with an `Option Err` component.
-/

namespace GoChatwork

/-- Error values produced by the transport; their content is never inspected. -/
abbrev Err := String

/-- The type `Person` of the source (`aid`, `cwid`, `name`, `onm`). -/
structure Person where
  Id : Int
  CwId : String
  Name : String
  Organization : String
deriving DecidableEq, Repr

/-- The type `Room` of the source (the field `Type` is spelled `Type_`); `receivedId` is
the unexported high-water mark. -/
structure Room where
  Name : String
  Type_ : Int
  LastUpdate : Int
  ReadNum : Int
  ChatNum : Int
  Member : List (String × Int)
  receivedId : Int
deriving DecidableEq, Repr

/-- A room as it is decoded from JSON: `encoding/json` never sets the unexported field
`receivedId`, so a decoded room carries the zero value there. -/
structure RoomDat where
  Name : String
  Type_ : Int
  LastUpdate : Int
  ReadNum : Int
  ChatNum : Int
  Member : List (String × Int)
deriving DecidableEq, Repr

/-- The `Room` value obtained by decoding: all exported fields, `receivedId = 0`. -/
def RoomDat.toRoom (d : RoomDat) : Room :=
  { Name := d.Name, Type_ := d.Type_, LastUpdate := d.LastUpdate, ReadNum := d.ReadNum,
    ChatNum := d.ChatNum, Member := d.Member, receivedId := 0 }

/-- The type `Chat` of the source. `Person` is the pointer read from the people cache
(`none` is the nil pointer); `Room` is the key of the rooms cache whose pointer the chat
holds; `Time` is the Unix time handed to `time.Unix`. -/
structure Chat where
  Id : Int
  Message : String
  Person : Option Person
  Room : String
  Time : Int
deriving DecidableEq, Repr

/-- The client `Chatwork` (the HTTP client itself belongs to the environment). -/
structure Chatwork where
  username : String
  password : String
  chatworkId : String
  lastId : String
  token : String
  people : String → Option Person
  rooms : String → Option Room

/-- The request parameter `UnknownParam` of `get_room_info`. -/
structure UnknownParam where
  C : Int
  U : Int
  T : Int
  L : Int
deriving DecidableEq, Repr

/-- The type `ChatRaw` of a fetched message. -/
structure ChatRaw where
  Id : Int
  Aid : Int
  Msg : String
  Tm : Int
  Utm : Int
deriving DecidableEq, Repr

/-- The type `RoomInfo`: the embedded room and its `chat_list`. -/
structure RoomInfo where
  toRoomDat : RoomDat
  Chats : List ChatRaw

/-- The type `RoomInfoResult`; `room_dat` is only indexed by key. -/
structure RoomInfoResult where
  Rooms : String → Option RoomInfo

/-- The type `UpdateInfo`. `Rooms` has type `interface{}` in the source: `some ids` when
the decoded value is a JSON object (its keys, in the order the loop visits them), `none`
when the type assertion to `map[string]interface{}` fails. -/
structure UpdateInfo where
  Num : Int
  Rooms : Option (List String)

/-- The type `GetUpdateResult`. -/
structure GetUpdateResult where
  LastId : String
  UpdateInfo : UpdateInfo

/-- The type `Result` of the login response. -/
structure LoginResult where
  Token : String
  MyId : String
  Rooms : List (String × RoomDat)
  People : List (String × Person)
  AnnounceId : Int
  LastId : String

/-- The type `AccountInfo`: `account_dat`, in the order the loop visits it. -/
structure AccountInfo where
  AccountDat : List (String × Person)

/-- What the client does to the outside world: a clock read or a `post`. -/
inductive Event where
  | now
  | api_login (token email password : String)
  | get_update (token last_id : String)
  | get_room_info (token id : String) (p : UnknownParam)
  | get_account_info (token : String) (aid : List Int)
deriving DecidableEq, Repr

/-- The environment: the answer to each call, as a function of the history of events up
to and including that call. `post` yields either an error or the decoded result. -/
structure Env where
  now : List Event → Int
  api_login : List Event → Except Err LoginResult
  get_update : List Event → Except Err GetUpdateResult
  get_room_info : List Event → Except Err RoomInfoResult
  get_account_info : List Event → Except Err AccountInfo

/-- Wrap in two-complement arithmetic of an integer to 64 bits. -/
def wrap64 (x : Int) : Int := (x + 2 ^ 63) % 2 ^ 64 - 2 ^ 63

/-- The function `strconv.Itoa(int(i))` on a 64-bit platform. -/
def Itoa (i : Int) : String := toString i

/-- The assignment `m[k] = v` on a map. -/
def put {V : Type} (m : String → Option V) (k : String) (v : V) : String → Option V :=
  fun j => if j = k then some v else m j

/-- The function `New`: empty caches, empty cursor and token. -/
def New (username password : String) : Chatwork :=
  { username := username, password := password, chatworkId := "", lastId := "",
    token := "", people := fun _ => none, rooms := fun _ => none }

/-- The method `Login`: on success sets cursor and token and assigns every entry of
the two snapshot maps into the caches. -/
def Login (E : Env) (cw : Chatwork) (hist : List Event) :
    Option Err × Chatwork × List Event :=
  let h1 := hist ++ [Event.api_login cw.token cw.username cw.password]
  match E.api_login h1 with
  | .error e => (some e, cw, h1)
  | .ok res =>
    let people := res.People.foldl (fun ppl kv => put ppl kv.1 kv.2) cw.people
    let rooms := res.Rooms.foldl (fun rs kv => put rs kv.1 kv.2.toRoom) cw.rooms
    (none, { cw with lastId := res.LastId, token := res.Token, people := people,
                     rooms := rooms }, h1)

/-- The method `GetAccountInfo`: one `get_account_info` post; the persons of the
answer, in the order the loop over `account_dat` visits them. -/
def GetAccountInfo (E : Env) (cw : Chatwork) (hist : List Event) (ids : List Int) :
    (List Person × Option Err) × List Event :=
  let h1 := hist ++ [Event.get_account_info cw.token ids]
  match E.get_account_info h1 with
  | .error e => (([], some e), h1)
  | .ok res => ((res.AccountDat.map Prod.snd, none), h1)

/-- The mutable state while `GetUpdate` runs: the client, the history, and the local
slice `updates`. -/
structure Machine where
  cw : Chatwork
  hist : List Event
  updates : List Chat

/-- The state of the scan of one room: the machine and the locals `lastUpdate` and
`received`. -/
structure Scan where
  m : Machine
  lastUpdate : Int
  received : Int

/-- The sender resolution inside the scan (source lines 302-313): when the key
`Itoa aid` is missing from the people cache, one `GetAccountInfo` call, and every
returned person is assigned under that same key. -/
def resolve (E : Env) (cw : Chatwork) (hist : List Event) (aid : Int) :
    Option Err × Chatwork × List Event :=
  let pid := Itoa aid
  match cw.people pid with
  | some _ => (none, cw, hist)
  | none =>
    match GetAccountInfo E cw hist [aid] with
    | ((_, some e), h2) => (some e, cw, h2)
    | ((new_persons, none), h2) =>
      (none, { cw with people := new_persons.foldl (fun ppl p => put ppl pid p) cw.people }, h2)

/-- One iteration of the loop over `info.Chats` (source lines 291-329) for the room under
key `id`, whose fields are read through the pointer `room`. -/
def scanChat (E : Env) (id : String) (room : Room) (chat : ChatRaw) (s : Scan) :
    Option Err × Scan :=
  if chat.Id ≤ room.receivedId ∨ chat.Tm < room.LastUpdate then (none, s)
  else
    let h1 := s.m.hist ++ [Event.now]
    let epoch := E.now h1
    if wrap64 (epoch - 60) > chat.Tm then (none, { s with m := { s.m with hist := h1 } })
    else
      match resolve E s.m.cw h1 chat.Aid with
      | (some e, cw1, h2) => (some e, { s with m := { s.m with cw := cw1, hist := h2 } })
      | (none, cw1, h2) =>
        let u : Chat := { Id := chat.Id, Message := chat.Msg, Room := id,
                          Person := cw1.people (Itoa chat.Aid), Time := chat.Tm }
        (none, { m := { cw := cw1, hist := h2, updates := s.m.updates ++ [u] },
                 lastUpdate := if chat.Tm > s.lastUpdate then chat.Tm else s.lastUpdate,
                 received := if chat.Id > s.received then chat.Id else s.received })

/-- The loop over `info.Chats`: stops at the first error. -/
def scanChats (E : Env) (id : String) (room : Room) : List ChatRaw → Scan → Option Err × Scan
  | [], s => (none, s)
  | chat :: rest, s =>
    match scanChat E id room chat s with
    | (some e, s1) => (some e, s1)
    | (none, s1) => scanChats E id room rest s1

/-- The write-back after the scan (source lines 332-337). -/
def commit (room : Room) (lastUpdate received : Int) : Room :=
  let room1 := if lastUpdate > room.LastUpdate then { room with LastUpdate := lastUpdate } else room
  if received > room1.receivedId then { room1 with receivedId := received } else room1

/-- The body of the loop over `updatedRoom` (source lines 236-339) for the key `id`; the
room is read through the pointer stored under `id`. -/
def roomStep (E : Env) (id : String) (m : Machine) : Option Err × Machine :=
  match m.cw.rooms id with
  | none => (none, m)
  | some room =>
    let p : UnknownParam := { C := room.ChatNum, U := 20, T := room.LastUpdate, L := 0 }
    let h1 := m.hist ++ [Event.get_room_info m.cw.token id p]
    match E.get_room_info h1 with
    | .error e => (some e, { m with hist := h1 })
    | .ok res =>
      match res.Rooms id with
      | none => (none, { m with hist := h1 })
      | some info =>
        match scanChats E id room info.Chats
            { m := { m with hist := h1 }, lastUpdate := 0, received := 0 } with
        | (some e, s) => (some e, s.m)
        | (none, s) =>
          (none, { s.m with cw := { s.m.cw with
                      rooms := put s.m.cw.rooms id (commit room s.lastUpdate s.received) } })

/-- The loop over `updatedRoom`: stops at the first error. -/
def roomLoop (E : Env) : List String → Machine → Option Err × Machine
  | [], m => (none, m)
  | id :: rest, m =>
    match roomStep E id m with
    | (some e, m1) => (some e, m1)
    | (none, m1) => roomLoop E rest m1

/-- The keys of the map `updatedRoom`: the reported ids that are keys of the rooms
cache, each once. -/
def updatedRoom (cw : Chatwork) (res : GetUpdateResult) : List String :=
  match res.UpdateInfo.Rooms with
  | some ids => (ids.dedup).filter (fun id => (cw.rooms id).isSome)
  | none => []

/-- The machine on which `GetUpdate` stops, with the error if there is one. -/
def GetUpdateRun (E : Env) (cw : Chatwork) (hist : List Event) : Option Err × Machine :=
  let h1 := hist ++ [Event.get_update cw.token cw.lastId]
  match E.get_update h1 with
  | .error e => (some e, { cw := cw, hist := h1, updates := [] })
  | .ok res =>
    let cw1 := { cw with lastId := res.LastId }
    roomLoop E (updatedRoom cw1 res) { cw := cw1, hist := h1, updates := [] }

/-- The method `GetUpdate`: the returned pair `(updates, err)` (`nil` with an error),
then the client and the history after the call. -/
def GetUpdate (E : Env) (cw : Chatwork) (hist : List Event) :
    (List Chat × Option Err) × Chatwork × List Event :=
  match GetUpdateRun E cw hist with
  | (some e, m) => (([], some e), m.cw, m.hist)
  | (none, m) => ((m.updates, none), m.cw, m.hist)

/-- A sequence of `n` calls of `GetUpdate`, each starting from the client and history
left by the one before: the concatenation of the chat lists returned, then the final
client and history. -/
def polls (E : Env) : Nat → Chatwork → List Event → List Chat × Chatwork × List Event
  | 0, cw, hist => ([], cw, hist)
  | n + 1, cw, hist =>
    match polls E n cw hist with
    | (out, cw1, h1) =>
      match GetUpdate E cw1 h1 with
      | ((chats, _), cw2, h2) => (out ++ chats, cw2, h2)

/-- The room ids of the `get_room_info` requests of a history, in order. -/
def fetched (hist : List Event) : List String :=
  hist.filterMap (fun e =>
    match e with
    | Event.get_room_info _ id _ => some id
    | _ => none)

/-- What a stretch of the scan of the room under key `id` does: it appends the chats `new`
to `updates`, all of that room and above the stored marks, folds their times and ids into
the two locals, never touches the rooms cache, the cursor or the token, never removes or
replaces a cached person, and issues no room fetch. -/
structure ScanStep (id : String) (room : Room) (s s1 : Scan) (new : List Chat) : Prop where
  rooms : s1.m.cw.rooms = s.m.cw.rooms
  lastId : s1.m.cw.lastId = s.m.cw.lastId
  token : s1.m.cw.token = s.m.cw.token
  people : ∀ k p, s.m.cw.people k = some p → s1.m.cw.people k = some p
  updates : s1.m.updates = s.m.updates ++ new
  marks : ∀ u ∈ new, u.Room = id ∧ room.receivedId < u.Id ∧ room.LastUpdate ≤ u.Time
  lastUpdate : s1.lastUpdate = (new.map Chat.Time).foldl max s.lastUpdate
  received : s1.received = (new.map Chat.Id).foldl max s.received
  fetches : fetched s1.m.hist = fetched s.m.hist

/-- Every room batch the server ever returns lists each message id at most once. -/
def BatchesNodup (E : Env) : Prop :=
  ∀ h ri id info, E.get_room_info h = Except.ok ri → ri.Rooms id = some info →
    (info.Chats.map ChatRaw.Id).Nodup

/-- What the loop over the room keys `rs` does between the machines `m` and `m1`, where it
stops with `err`: the chats `new` are appended, each of a room of `rs` and above the marks
that room had in `m`; rooms outside `rs` are untouched, no room appears or disappears,
the marks of every room only grow, and when the loop ends without error the marks of the
room of every appended chat are at least the id and time of that chat. -/
structure LoopStep (rs : List String) (m m1 : Machine) (err : Option Err) (new : List Chat) :
    Prop where
  lastId : m1.cw.lastId = m.cw.lastId
  token : m1.cw.token = m.cw.token
  people : ∀ k p, m.cw.people k = some p → m1.cw.people k = some p
  frame : ∀ k, k ∉ rs → m1.cw.rooms k = m.cw.rooms k
  absent : ∀ k, m.cw.rooms k = none → m1.cw.rooms k = none
  mono : ∀ k r0, m.cw.rooms k = some r0 →
    ∃ r1, m1.cw.rooms k = some r1 ∧ r0.receivedId ≤ r1.receivedId ∧ r0.LastUpdate ≤ r1.LastUpdate
  updates : m1.updates = m.updates ++ new
  marks : ∀ u ∈ new, u.Room ∈ rs ∧
    ∃ r0, m.cw.rooms u.Room = some r0 ∧ r0.receivedId < u.Id ∧ r0.LastUpdate ≤ u.Time
  raised : err = none → ∀ u ∈ new,
    ∃ r1, m1.cw.rooms u.Room = some r1 ∧ u.Id ≤ r1.receivedId ∧ u.Time ≤ r1.LastUpdate
  fetches : ∃ l, l.Sublist rs ∧ fetched m1.hist = fetched m.hist ++ l

/-- The id, message and time an emitted chat carries. -/
def Chat.content (u : Chat) : Int × String × Int := (u.Id, u.Message, u.Time)

/-- The id, message and time a fetched message carries. -/
def ChatRaw.content (c : ChatRaw) : Int × String × Int := (c.Id, c.Msg, c.Tm)

/-! ## Concrete data: the scenario of room `R` with marks `(100, 1000)` at time `1010` -/

/-- The cached room of the scenario. -/
def exRoom : Room :=
  { Name := "R", Type_ := 1, LastUpdate := 1000, ReadNum := 0, ChatNum := 3, Member := [],
    receivedId := 100 }

/-- The delivered candidates of the scenario, all sent by account 7. -/
def exBatch : List ChatRaw :=
  [{ Id := 99, Aid := 7, Msg := "a", Tm := 1005, Utm := 0 },
   { Id := 101, Aid := 7, Msg := "b", Tm := 999, Utm := 0 },
   { Id := 102, Aid := 7, Msg := "c", Tm := 1010, Utm := 0 }]

/-- The room info carrying `exBatch`. -/
def exInfo : RoomInfo :=
  { toRoomDat := { Name := "R", Type_ := 1, LastUpdate := 1010, ReadNum := 0, ChatNum := 6,
                   Member := [] },
    Chats := exBatch }

/-- The account 7. -/
def exPerson : Person := { Id := 7, CwId := "cw7", Name := "Seven", Organization := "Org" }

/-- A client that knows the room `R` and nobody. -/
def exClient : Chatwork :=
  { username := "user", password := "pw", chatworkId := "", lastId := "L0", token := "tok",
    people := fun _ => none, rooms := put (fun _ => none) "R" exRoom }

/-- The change-detection answer of the scenario: new cursor `L1`, room `R` changed. -/
def exUpdate : GetUpdateResult :=
  { LastId := "L1", UpdateInfo := { Num := 1, Rooms := some ["R"] } }

/-- A server and clock for the scenario: the time is always 1010, room `R` is reported
changed, its fetch returns `exBatch`, and the lookup returns account 7. -/
def exEnv : Env :=
  { now := fun _ => 1010
    api_login := fun _ => Except.error "not used"
    get_update := fun _ => Except.ok exUpdate
    get_room_info := fun _ => Except.ok { Rooms := put (fun _ => none) "R" exInfo }
    get_account_info := fun _ => Except.ok { AccountDat := [("7", exPerson)] } }

/-- A server whose batch for room `R` lists the message id 200 twice. -/
def dupEnv : Env :=
  { exEnv with
    get_room_info := fun _ => Except.ok
      { Rooms := put (fun _ => none) "R"
          { exInfo with Chats := [{ Id := 200, Aid := 7, Msg := "x", Tm := 1010, Utm := 0 },
                                  { Id := 200, Aid := 7, Msg := "x", Tm := 1010, Utm := 0 }] } } }

/-- A server that reports only the room `42`, which `exClient` does not know. -/
def env42 : Env :=
  { exEnv with
    get_update := fun _ =>
      Except.ok { LastId := "L1", UpdateInfo := { Num := 1, Rooms := some ["42"] } } }

/-- A server that reports the room `42`, which `exClient` does not know, and the room
`R`, which it knows. -/
def mixedEnv : Env :=
  { exEnv with
    get_update := fun _ =>
      Except.ok { LastId := "L1", UpdateInfo := { Num := 2, Rooms := some ["42", "R"] } } }

/-- A server whose login snapshot holds the room `R` with `lt = -5` and whose batch for
room `R` is empty. -/
def negEnv : Env :=
  { exEnv with
    api_login := fun _ =>
      Except.ok { Token := "tok", MyId := "1",
                  Rooms := [("R", { exInfo.toRoomDat with LastUpdate := -5 })],
                  People := [], AnnounceId := 0, LastId := "L0" }
    get_room_info := fun _ =>
      Except.ok { Rooms := put (fun _ => none) "R" { exInfo with Chats := [] } } }

/-- A client that knows the rooms `A` and `B`, both with the marks of `exRoom`. -/
def twoClient : Chatwork :=
  { exClient with rooms := put (put (fun _ => none) "A" exRoom) "B" exRoom }

/-- A server that reports the rooms `A` and `B` changed, answers the fetch for `A` with
`exBatch` and fails every other fetch. -/
def failEnv : Env :=
  { exEnv with
    get_update := fun _ =>
      Except.ok { LastId := "L1", UpdateInfo := { Num := 2, Rooms := some ["A", "B"] } }
    get_room_info := fun h =>
      match h.getLast? with
      | some (Event.get_room_info _ id _) =>
        if id = "A" then Except.ok { Rooms := put (fun _ => none) "A" exInfo }
        else Except.error "boom"
      | _ => Except.error "boom" }

/-- A server whose account lookup succeeds with an empty `account_dat`. -/
def noPersonEnv : Env :=
  { exEnv with get_account_info := fun _ => Except.ok { AccountDat := [] } }

/-- A server whose batch for `R` holds two fresh messages of account 7 and whose account
lookup is empty the first time it is asked and returns account 7 afterwards. -/
def lateEnv : Env :=
  { exEnv with
    get_room_info := fun _ => Except.ok
      { Rooms := put (fun _ => none) "R"
          { exInfo with Chats := [{ Id := 102, Aid := 7, Msg := "c", Tm := 1010, Utm := 0 },
                                  { Id := 103, Aid := 7, Msg := "d", Tm := 1010, Utm := 0 }] } }
    get_account_info := fun h =>
      if (h.filter (fun e => decide (e = Event.get_account_info "tok" [7]))).length ≤ 1 then
        Except.ok { AccountDat := [] }
      else Except.ok { AccountDat := [("7", exPerson)] } }

/-- The account 8. -/
def exPerson8 : Person := { Id := 8, CwId := "cw8", Name := "Eight", Organization := "Org" }

/-- A server whose account lookup returns the accounts 7 and 8, visited in this order. -/
def twoPersonsEnv : Env :=
  { exEnv with
    get_account_info := fun _ =>
      Except.ok { AccountDat := [("7", exPerson), ("8", exPerson8)] } }

/-- The same answer with the two accounts visited in the other order. -/
def twoPersonsEnvRev : Env :=
  { exEnv with
    get_account_info := fun _ =>
      Except.ok { AccountDat := [("8", exPerson8), ("7", exPerson)] } }

/-- A decoded room snapshot entry. -/
def exRoomDat : RoomDat :=
  { Name := "room", Type_ := 1, LastUpdate := 1000, ReadNum := 0, ChatNum := 3, Member := [] }

/-- The snapshot of a first login: room `R`, account 7. -/
def exLogin1 : LoginResult :=
  { Token := "t1", MyId := "1", Rooms := [("R", exRoomDat)], People := [("7", exPerson)],
    AnnounceId := 0, LastId := "L1" }

/-- The snapshot of a second login: room `S`, account 8. -/
def exLogin2 : LoginResult :=
  { Token := "t2", MyId := "1", Rooms := [("S", exRoomDat)], People := [("8", exPerson8)],
    AnnounceId := 0, LastId := "L2" }

/-- A server that answers the first login with `exLogin1` and later ones with
`exLogin2`. -/
def loginEnv : Env :=
  { exEnv with
    api_login := fun h => if h.length ≤ 1 then Except.ok exLogin1 else Except.ok exLogin2 }

/-! ## Basic facts: wrapping, maps -/

theorem wrap64_of_int64 (x : Int) (h1 : -2 ^ 63 ≤ x) (h2 : x < 2 ^ 63) : wrap64 x = x := by
  unfold wrap64
  rw [Int.emod_eq_of_lt (by omega) (by omega)]
  omega

theorem put_same {V : Type} (m : String → Option V) (k : String) (v : V) :
    put m k v k = some v := by
  simp [put]

theorem put_other {V : Type} (m : String → Option V) (k : String) (v : V) (j : String)
    (h : j ≠ k) : put m k v j = m j := by
  simp [put, h]

theorem foldl_put_other (ps : List Person) (m : String → Option Person) (pid k : String)
    (h : k ≠ pid) : (ps.foldl (fun ppl p => put ppl pid p) m) k = m k := by
  induction ps generalizing m with
  | nil => rfl
  | cons p ps ih => simp only [List.foldl_cons]; rw [ih, put_other _ _ _ _ h]

/-! ## The sender resolution -/

theorem resolve_rooms (E : Env) (cw : Chatwork) (hist : List Event) (aid : Int) :
    (resolve E cw hist aid).2.1.rooms = cw.rooms ∧
    (resolve E cw hist aid).2.1.lastId = cw.lastId ∧
    (resolve E cw hist aid).2.1.token = cw.token := by
  unfold resolve
  simp only
  split
  · exact ⟨rfl, rfl, rfl⟩
  · split
    · exact ⟨rfl, rfl, rfl⟩
    · exact ⟨rfl, rfl, rfl⟩

theorem resolve_people_mono (E : Env) (cw : Chatwork) (hist : List Event) (aid : Int)
    (k : String) (p : Person) (h : cw.people k = some p) :
    (resolve E cw hist aid).2.1.people k = some p := by
  unfold resolve
  simp only
  split
  · exact h
  · rename_i hnone
    split
    · exact h
    · simp only
      by_cases hk : k = Itoa aid
      · subst hk; rw [hnone] at h; cases h
      · rw [foldl_put_other _ _ _ _ hk]; exact h

theorem fetched_append (a b : List Event) : fetched (a ++ b) = fetched a ++ fetched b := by
  simp [fetched, List.filterMap_append]

theorem resolve_fetched (E : Env) (cw : Chatwork) (hist : List Event) (aid : Int) :
    fetched (resolve E cw hist aid).2.2 = fetched hist := by
  unfold resolve GetAccountInfo
  simp only
  split
  · rfl
  · split <;> rename_i heq <;> split at heq <;> cases heq <;> simp [fetched_append, fetched]

/-! ## The scan of one room -/

theorem scanStep_refl (id : String) (room : Room) (s : Scan) : ScanStep id room s s [] :=
  { rooms := rfl, lastId := rfl, token := rfl, people := fun _ _ h => h,
    updates := by simp, marks := by simp, lastUpdate := rfl, received := rfl, fetches := rfl }

theorem scanStep_trans {id : String} {room : Room} {s s1 s2 : Scan} {n1 n2 : List Chat}
    (a : ScanStep id room s s1 n1) (b : ScanStep id room s1 s2 n2) :
    ScanStep id room s s2 (n1 ++ n2) :=
  { rooms := b.rooms.trans a.rooms
    lastId := b.lastId.trans a.lastId
    token := b.token.trans a.token
    people := fun k p h => b.people k p (a.people k p h)
    updates := by rw [b.updates, a.updates, List.append_assoc]
    marks := by
      intro u hu
      rcases List.mem_append.1 hu with h | h
      · exact a.marks u h
      · exact b.marks u h
    lastUpdate := by rw [b.lastUpdate, a.lastUpdate, List.map_append, List.foldl_append]
    received := by rw [b.received, a.received, List.map_append, List.foldl_append]
    fetches := b.fetches.trans a.fetches }

theorem scanChat_step (E : Env) (id : String) (room : Room) (chat : ChatRaw) (s : Scan) :
    ScanStep id room s (scanChat E id room chat s).2 [] ∨
    ((scanChat E id room chat s).1 = none ∧
      ScanStep id room s (scanChat E id room chat s).2
        [{ Id := chat.Id, Message := chat.Msg, Room := id, Time := chat.Tm,
           Person := (scanChat E id room chat s).2.m.cw.people (Itoa chat.Aid) }]) := by
  unfold scanChat
  split
  · exact Or.inl (scanStep_refl id room s)
  · rename_i hacc
    simp only
    split
    · left
      exact { scanStep_refl id room s with fetches := by simp [fetched_append, fetched] }
    · have hr := resolve_rooms E s.m.cw (s.m.hist ++ [Event.now]) chat.Aid
      have hp := resolve_people_mono E s.m.cw (s.m.hist ++ [Event.now]) chat.Aid
      have hf := resolve_fetched E s.m.cw (s.m.hist ++ [Event.now]) chat.Aid
      split
      · rename_i e cw1 h2 heq
        rw [heq] at hr hp hf
        left
        exact { rooms := hr.1, lastId := hr.2.1, token := hr.2.2, people := hp,
                updates := by simp, marks := by simp, lastUpdate := rfl, received := rfl,
                fetches := by simpa [fetched_append, fetched] using hf }
      · rename_i cw1 h2 heq
        rw [heq] at hr hp hf
        right
        refine ⟨rfl, ?_⟩
        push_neg at hacc
        exact { rooms := hr.1, lastId := hr.2.1, token := hr.2.2, people := hp,
                updates := rfl
                marks := by
                  intro u hu
                  simp only [List.mem_singleton] at hu
                  subst hu
                  exact ⟨rfl, hacc.1, hacc.2⟩
                lastUpdate := by
                  simp only [List.map_cons, List.map_nil, List.foldl_cons, List.foldl_nil]
                  split <;> omega
                received := by
                  simp only [List.map_cons, List.map_nil, List.foldl_cons, List.foldl_nil]
                  split <;> omega
                fetches := by simpa [fetched_append, fetched] using hf }

theorem scanChats_step (E : Env) (id : String) (room : Room) (cs : List ChatRaw) (s : Scan) :
    ∃ new, ScanStep id room s (scanChats E id room cs s).2 new ∧
      (new.map Chat.Id).Sublist (cs.map ChatRaw.Id) := by
  induction cs generalizing s with
  | nil => exact ⟨[], scanStep_refl id room s, by simp⟩
  | cons chat rest ih =>
    unfold scanChats
    rcases scanChat_step E id room chat s with h | ⟨hnone, h⟩
    · split
      · rename_i e s1 heq
        rw [heq] at h
        exact ⟨[], h, by simp⟩
      · rename_i s1 heq
        rw [heq] at h
        obtain ⟨new, hs, hsub⟩ := ih s1
        refine ⟨new, by simpa using scanStep_trans h hs, ?_⟩
        simp only [List.map_cons]
        exact hsub.trans (List.sublist_cons_self _ _)
    · split
      · rename_i e s1 heq
        rw [heq] at hnone
        cases hnone
      · rename_i s1 heq
        rw [heq] at h
        obtain ⟨new, hs, hsub⟩ := ih s1
        refine ⟨_, scanStep_trans h hs, ?_⟩
        simp only [List.map_cons, List.singleton_append]
        exact hsub.cons₂ _

/-! ## The write-back and the body of the room loop -/

theorem foldl_max_ge_init (l : List Int) (a : Int) : a ≤ l.foldl max a := by
  induction l generalizing a with
  | nil => exact le_refl a
  | cons x xs ih => exact le_trans (le_max_left a x) (ih (max a x))

theorem foldl_max_ge_mem (l : List Int) (a x : Int) (hx : x ∈ l) : x ≤ l.foldl max a := by
  induction l generalizing a with
  | nil => cases hx
  | cons y ys ih =>
    simp only [List.foldl_cons]
    rcases List.mem_cons.1 hx with h | h
    · subst h; exact le_trans (le_max_right a x) (foldl_max_ge_init ys _)
    · exact ih _ h

theorem commit_eq (room : Room) (lastUpdate received : Int) :
    commit room lastUpdate received =
      { room with LastUpdate := max room.LastUpdate lastUpdate,
                  receivedId := max room.receivedId received } := by
  unfold commit
  by_cases h1 : lastUpdate > room.LastUpdate <;> by_cases h2 : received > room.receivedId
  · simp [h1, h2, max_eq_right (le_of_lt h1), max_eq_right (le_of_lt h2)]
  · simp [h1, h2, max_eq_right (le_of_lt h1), max_eq_left (not_lt.1 h2)]
  · simp [h1, h2, max_eq_left (not_lt.1 h1), max_eq_right (le_of_lt h2)]
  · simp [h1, h2, max_eq_left (not_lt.1 h1), max_eq_left (not_lt.1 h2)]

theorem loopStep_refl (rs : List String) (m : Machine) (err : Option Err) :
    LoopStep rs m m err [] :=
  { lastId := rfl, token := rfl, people := fun _ _ h => h, frame := fun _ _ => rfl,
    absent := fun _ h => h, mono := fun _ r0 h => ⟨r0, h, le_refl _, le_refl _⟩,
    updates := by simp, marks := by simp, raised := by simp,
    fetches := ⟨[], List.nil_sublist _, by simp⟩ }

theorem loopStep_hist_only (rs : List String) (m : Machine) (h : List Event) (err : Option Err)
    (hf : ∃ l, l.Sublist rs ∧ fetched h = fetched m.hist ++ l) :
    LoopStep rs m { m with hist := h } err [] :=
  { lastId := rfl, token := rfl, people := fun _ _ h => h, frame := fun _ _ => rfl,
    absent := fun _ h => h, mono := fun _ r0 h => ⟨r0, h, le_refl _, le_refl _⟩,
    updates := by simp, marks := by simp, raised := by simp, fetches := hf }

theorem roomStep_step (E : Env) (id : String) (m : Machine) :
    ∃ new, LoopStep [id] m (roomStep E id m).2 (roomStep E id m).1 new ∧
      (∀ u ∈ new, u.Room = id) ∧ (BatchesNodup E → (new.map Chat.Id).Nodup) := by
  unfold roomStep
  split
  · exact ⟨[], loopStep_refl _ _ _, by simp, by simp⟩
  · rename_i room hroom
    simp only
    split
    · refine ⟨[], ?_, by simp, by simp⟩
      exact loopStep_hist_only _ _ _ _
        ⟨[id], List.Sublist.refl _, by simp [fetched_append, fetched]⟩
    · rename_i res hres
      split
      · refine ⟨[], ?_, by simp, by simp⟩
        exact loopStep_hist_only _ _ _ _
          ⟨[id], List.Sublist.refl _, by simp [fetched_append, fetched]⟩
      · rename_i info hinfo
        obtain ⟨new, hs, hsub⟩ := scanChats_step E id room info.Chats
          { m := { m with hist := m.hist ++
              [Event.get_room_info m.cw.token id
                { C := room.ChatNum, U := 20, T := room.LastUpdate, L := 0 }] },
            lastUpdate := 0, received := 0 }
        have hnd : BatchesNodup E → (new.map Chat.Id).Nodup :=
          fun hb => (hb _ _ _ _ hres hinfo).sublist hsub
        have hfe : ∃ l, l.Sublist [id] ∧
            fetched (scanChats E id room info.Chats
              { m := { m with hist := m.hist ++
                  [Event.get_room_info m.cw.token id
                    { C := room.ChatNum, U := 20, T := room.LastUpdate, L := 0 }] },
                lastUpdate := 0, received := 0 }).2.m.hist = fetched m.hist ++ l :=
          ⟨[id], List.Sublist.refl _, by rw [hs.fetches]; simp [fetched_append, fetched]⟩
        have hmk : ∀ u ∈ new, u.Room ∈ [id] ∧
            ∃ r0, m.cw.rooms u.Room = some r0 ∧ r0.receivedId < u.Id ∧ r0.LastUpdate ≤ u.Time := by
          intro u hu
          obtain ⟨h1, h2, h3⟩ := hs.marks u hu
          exact ⟨by simp [h1], room, by rw [h1]; exact hroom, h2, h3⟩
        split
        · rename_i e s heq
          rw [heq] at hs hfe
          refine ⟨new, ?_, fun u hu => (hs.marks u hu).1, hnd⟩
          exact { lastId := hs.lastId, token := hs.token, people := hs.people,
                  frame := fun k _ => by rw [hs.rooms]
                  absent := fun k h => by rw [hs.rooms]; exact h
                  mono := fun k r0 h => ⟨r0, by rw [hs.rooms]; exact h, le_refl _, le_refl _⟩
                  updates := hs.updates, marks := hmk, raised := by simp, fetches := hfe }
        · rename_i s heq
          rw [heq] at hs hfe
          refine ⟨new, ?_, fun u hu => (hs.marks u hu).1, hnd⟩
          exact { lastId := hs.lastId, token := hs.token, people := hs.people,
                  frame := fun k hk => by
                    have hk1 : k ≠ id := by simpa using hk
                    simp only [put_other _ _ _ _ hk1]
                    rw [hs.rooms]
                  absent := fun k h => by
                    have hk1 : k ≠ id := by
                      rintro rfl
                      rw [hroom] at h
                      cases h
                    simp only [put_other _ _ _ _ hk1]
                    rw [hs.rooms]
                    exact h
                  mono := fun k r0 h => by
                    by_cases hk : k = id
                    · subst hk
                      rw [hroom] at h
                      cases h
                      refine ⟨_, put_same _ _ _, ?_, ?_⟩
                      · rw [commit_eq]; exact le_max_left _ _
                      · rw [commit_eq]; exact le_max_left _ _
                    · simp only [put_other _ _ _ _ hk]
                      exact ⟨r0, by rw [hs.rooms]; exact h, le_refl _, le_refl _⟩
                  updates := hs.updates, marks := hmk
                  raised := fun _ u hu => by
                    rw [(hs.marks u hu).1]
                    refine ⟨_, put_same _ _ _, ?_, ?_⟩
                    · rw [commit_eq, hs.received]
                      exact le_trans (foldl_max_ge_mem _ _ _ (List.mem_map_of_mem _ hu))
                        (le_max_right _ _)
                    · rw [commit_eq, hs.lastUpdate]
                      exact le_trans (foldl_max_ge_mem _ _ _ (List.mem_map_of_mem _ hu))
                        (le_max_right _ _)
                  fetches := hfe }

/-! ## The loop over the changed rooms -/

theorem loopStep_weaken {rs rs2 : List String} {m m1 : Machine} {err : Option Err}
    {new : List Chat} (hsub : rs.Sublist rs2) (a : LoopStep rs m m1 err new) :
    LoopStep rs2 m m1 err new :=
  { lastId := a.lastId, token := a.token, people := a.people
    frame := fun k hk => a.frame k (fun h => hk (hsub.subset h))
    absent := a.absent, mono := a.mono, updates := a.updates
    marks := fun u hu => ⟨hsub.subset (a.marks u hu).1, (a.marks u hu).2⟩
    raised := a.raised
    fetches := by
      obtain ⟨l, hl, hf⟩ := a.fetches
      exact ⟨l, hl.trans hsub, hf⟩ }

theorem loopStep_comp {rs1 rs2 : List String} {m m1 m2 : Machine} {err : Option Err}
    {n1 n2 : List Chat} (a : LoopStep rs1 m m1 none n1) (b : LoopStep rs2 m1 m2 err n2) :
    LoopStep (rs1 ++ rs2) m m2 err (n1 ++ n2) :=
  { lastId := b.lastId.trans a.lastId
    token := b.token.trans a.token
    people := fun k p h => b.people k p (a.people k p h)
    frame := fun k hk => by
      rw [List.mem_append, not_or] at hk
      rw [b.frame k hk.2, a.frame k hk.1]
    absent := fun k h => b.absent k (a.absent k h)
    mono := fun k r0 h => by
      obtain ⟨r1, h1, h2, h3⟩ := a.mono k r0 h
      obtain ⟨r2, h4, h5, h6⟩ := b.mono k r1 h1
      exact ⟨r2, h4, le_trans h2 h5, le_trans h3 h6⟩
    updates := by rw [b.updates, a.updates, List.append_assoc]
    marks := fun u hu => by
      rcases List.mem_append.1 hu with h | h
      · exact ⟨List.mem_append_left _ (a.marks u h).1, (a.marks u h).2⟩
      · obtain ⟨hr, r1, h1, h2, h3⟩ := b.marks u h
        refine ⟨List.mem_append_right _ hr, ?_⟩
        cases h0 : m.cw.rooms u.Room with
        | none => rw [a.absent _ h0] at h1; cases h1
        | some r0 =>
          obtain ⟨r, h4, h5, h6⟩ := a.mono _ r0 h0
          rw [h1] at h4
          cases h4
          exact ⟨r0, rfl, lt_of_le_of_lt h5 h2, le_trans h6 h3⟩
    raised := fun he u hu => by
      rcases List.mem_append.1 hu with h | h
      · obtain ⟨r1, h1, h2, h3⟩ := a.raised rfl u h
        obtain ⟨r2, h4, h5, h6⟩ := b.mono _ r1 h1
        exact ⟨r2, h4, le_trans h2 h5, le_trans h3 h6⟩
      · exact b.raised he u h
    fetches := by
      obtain ⟨l1, hl1, hf1⟩ := a.fetches
      obtain ⟨l2, hl2, hf2⟩ := b.fetches
      exact ⟨l1 ++ l2, hl1.append hl2, by rw [hf2, hf1, List.append_assoc]⟩ }

theorem roomLoop_step (E : Env) (rs : List String) (m : Machine) :
    ∃ new, LoopStep rs m (roomLoop E rs m).2 (roomLoop E rs m).1 new ∧
      (BatchesNodup E → rs.Nodup → (new.map (fun c => (c.Room, c.Id))).Nodup) := by
  induction rs generalizing m with
  | nil => exact ⟨[], loopStep_refl _ _ _, by simp⟩
  | cons id rest ih =>
    unfold roomLoop
    obtain ⟨n1, h1, hroom, hnd⟩ := roomStep_step E id m
    have hnd1 : BatchesNodup E → (n1.map (fun c => (c.Room, c.Id))).Nodup := by
      intro hb
      apply List.Nodup.of_map Prod.snd
      simpa [List.map_map, Function.comp_def] using hnd hb
    split
    · rename_i e m1 heq
      rw [heq] at h1
      exact ⟨n1, loopStep_weaken (by simp) h1, fun hb _ => hnd1 hb⟩
    · rename_i m1 heq
      rw [heq] at h1
      obtain ⟨n2, h2, hnd2⟩ := ih m1
      refine ⟨n1 ++ n2, by simpa using loopStep_comp h1 h2, ?_⟩
      intro hb hrs
      rw [List.nodup_cons] at hrs
      rw [List.map_append, List.nodup_append]
      refine ⟨hnd1 hb, hnd2 hb hrs.2, ?_⟩
      intro x hx1 hx2
      obtain ⟨u, hu, rfl⟩ := List.mem_map.1 hx1
      obtain ⟨v, hv, hvu⟩ := List.mem_map.1 hx2
      have hv1 := (h2.marks v hv).1
      have hvr : v.Room = u.Room := congrArg Prod.fst hvu
      rw [hvr, hroom u hu] at hv1
      exact hrs.1 hv1

theorem roomLoop_append (E : Env) (pre rest : List String) (m : Machine) :
    roomLoop E (pre ++ rest) m =
      match roomLoop E pre m with
      | (some e, m1) => (some e, m1)
      | (none, m1) => roomLoop E rest m1 := by
  induction pre generalizing m with
  | nil => simp [roomLoop]
  | cons id pre ih =>
    simp only [List.cons_append, roomLoop]
    split
    · rfl
    · exact ih _

/-! ## Runs in which every fetch and every lookup succeeds -/

theorem resolve_ok (E : Env) (hacc : ∀ h, ∃ a, E.get_account_info h = Except.ok a)
    (cw : Chatwork) (hist : List Event) (aid : Int) : (resolve E cw hist aid).1 = none := by
  unfold resolve GetAccountInfo
  simp only
  split
  · rfl
  · obtain ⟨a, ha⟩ := hacc (hist ++ [Event.get_account_info cw.token [aid]])
    rw [ha]

theorem scanChat_ok (E : Env) (hacc : ∀ h, ∃ a, E.get_account_info h = Except.ok a)
    (id : String) (room : Room) (chat : ChatRaw) (s : Scan) :
    (scanChat E id room chat s).1 = none := by
  unfold scanChat
  split
  · rfl
  · simp only
    split
    · rfl
    · have h := resolve_ok E hacc s.m.cw (s.m.hist ++ [Event.now]) chat.Aid
      split
      · rename_i heq
        rw [heq] at h
        cases h
      · rfl

theorem scanChats_ok (E : Env) (hacc : ∀ h, ∃ a, E.get_account_info h = Except.ok a)
    (id : String) (room : Room) (cs : List ChatRaw) (s : Scan) :
    (scanChats E id room cs s).1 = none := by
  induction cs generalizing s with
  | nil => rfl
  | cons chat rest ih =>
    unfold scanChats
    have h := scanChat_ok E hacc id room chat s
    split
    · rename_i heq
      rw [heq] at h
      cases h
    · exact ih _

theorem scanChat_content (E : Env) (now : Int) (hnow : ∀ h, E.now h = now)
    (hlo : -2 ^ 63 + 60 ≤ now) (hhi : now < 2 ^ 63)
    (id : String) (room : Room) (chat : ChatRaw) (s : Scan) :
    (scanChat E id room chat s).1 = none →
    (scanChat E id room chat s).2.m.updates.map Chat.content =
      s.m.updates.map Chat.content ++
        ([chat].filter (fun c => decide (room.receivedId < c.Id ∧ room.LastUpdate ≤ c.Tm ∧
            now - c.Tm ≤ 60))).map ChatRaw.content := by
  unfold scanChat
  split
  · rename_i hrej
    intro _
    have : ¬ (room.receivedId < chat.Id ∧ room.LastUpdate ≤ chat.Tm ∧ now - chat.Tm ≤ 60) := by
      rintro ⟨h1, h2, _⟩
      rcases hrej with h | h <;> omega
    simp only [List.filter, decide_eq_false this, List.map_nil, List.append_nil]
  · rename_i hacc
    push_neg at hacc
    simp only [hnow, wrap64_of_int64 (now - 60) (by omega) (by omega)]
    split
    · rename_i hold
      intro _
      have : ¬ (room.receivedId < chat.Id ∧ room.LastUpdate ≤ chat.Tm ∧ now - chat.Tm ≤ 60) := by
        rintro ⟨_, _, h3⟩
        omega
      simp only [List.filter, decide_eq_false this, List.map_nil, List.append_nil]
    · rename_i hrec
      have : room.receivedId < chat.Id ∧ room.LastUpdate ≤ chat.Tm ∧ now - chat.Tm ≤ 60 :=
        ⟨hacc.1, hacc.2, by omega⟩
      split
      · intro h
        cases h
      · intro _
        simp only [List.filter, decide_eq_true this, List.map_append, List.map_cons,
          List.map_nil, Chat.content, ChatRaw.content]

theorem scanChats_content (E : Env) (now : Int) (hnow : ∀ h, E.now h = now)
    (hlo : -2 ^ 63 + 60 ≤ now) (hhi : now < 2 ^ 63)
    (id : String) (room : Room) (cs : List ChatRaw) (s : Scan) :
    (scanChats E id room cs s).1 = none →
    (scanChats E id room cs s).2.m.updates.map Chat.content =
      s.m.updates.map Chat.content ++
        (cs.filter (fun c => decide (room.receivedId < c.Id ∧ room.LastUpdate ≤ c.Tm ∧
            now - c.Tm ≤ 60))).map ChatRaw.content := by
  induction cs generalizing s with
  | nil => intro _; simp [scanChats]
  | cons chat rest ih =>
    unfold scanChats
    have h := scanChat_content E now hnow hlo hhi id room chat s
    split
    · intro h1
      cases h1
    · rename_i s1 heq
      rw [heq] at h
      intro h1
      rw [ih s1 h1, h rfl, List.append_assoc, ← List.map_append, ← List.filter_append]
      rfl

theorem roomStep_ok (E : Env) (hfetch : ∀ h, ∃ ri, E.get_room_info h = Except.ok ri)
    (hacc : ∀ h, ∃ a, E.get_account_info h = Except.ok a) (id : String) (m : Machine) :
    (roomStep E id m).1 = none := by
  unfold roomStep
  split
  · rfl
  · rename_i room hroom
    simp only
    obtain ⟨ri, hri⟩ := hfetch (m.hist ++ [Event.get_room_info m.cw.token id
      { C := room.ChatNum, U := 20, T := room.LastUpdate, L := 0 }])
    rw [hri]
    simp only
    split
    · rfl
    · rename_i info hinfo
      have h := scanChats_ok E hacc id room info.Chats
        { m := { m with hist := m.hist ++ [Event.get_room_info m.cw.token id
            { C := room.ChatNum, U := 20, T := room.LastUpdate, L := 0 }] },
          lastUpdate := 0, received := 0 }
      split
      · rename_i heq
        rw [heq] at h
        cases h
      · rfl

theorem roomLoop_ok (E : Env) (hfetch : ∀ h, ∃ ri, E.get_room_info h = Except.ok ri)
    (hacc : ∀ h, ∃ a, E.get_account_info h = Except.ok a) (rs : List String) (m : Machine) :
    (roomLoop E rs m).1 = none := by
  induction rs generalizing m with
  | nil => rfl
  | cons id rest ih =>
    unfold roomLoop
    have h := roomStep_ok E hfetch hacc id m
    split
    · rename_i heq
      rw [heq] at h
      cases h
    · exact ih _

theorem roomStep_content (E : Env) (now : Int) (hnow : ∀ h, E.now h = now)
    (hlo : -2 ^ 63 + 60 ≤ now) (hhi : now < 2 ^ 63)
    (id : String) (room : Room) (info : RoomInfo) (m : Machine)
    (hroom : m.cw.rooms id = some room)
    (hinfo : ∀ h tok p ri, E.get_room_info (h ++ [Event.get_room_info tok id p]) = Except.ok ri →
      ri.Rooms id = some info) :
    (roomStep E id m).1 = none →
    (roomStep E id m).2.updates.map Chat.content =
      m.updates.map Chat.content ++
        (info.Chats.filter (fun c => decide (room.receivedId < c.Id ∧ room.LastUpdate ≤ c.Tm ∧
            now - c.Tm ≤ 60))).map ChatRaw.content := by
  unfold roomStep
  rw [hroom]
  simp only
  split
  · intro h
    cases h
  · rename_i ri hri
    rw [hinfo _ _ _ _ hri]
    simp only
    have h2 := scanChats_content E now hnow hlo hhi id room info.Chats
      { m := { m with hist := m.hist ++ [Event.get_room_info m.cw.token id
          { C := room.ChatNum, U := 20, T := room.LastUpdate, L := 0 }] },
        lastUpdate := 0, received := 0 }
    split
    · intro h
      cases h
    · rename_i s heq
      rw [heq] at h2
      intro _
      exact h2 rfl

theorem filter_room_eq_self (id : String) (l : List Chat) (h : ∀ u ∈ l, u.Room = id) :
    l.filter (fun c => decide (c.Room = id)) = l :=
  List.filter_eq_self.2 (fun u hu => by simp [h u hu])

theorem filter_room_eq_nil (id k : String) (hk : k ≠ id) (l : List Chat)
    (h : ∀ u ∈ l, u.Room = k) : l.filter (fun c => decide (c.Room = id)) = [] :=
  List.filter_eq_nil_iff.2 (fun u hu => by simp [h u hu, hk])

theorem roomLoop_content (E : Env) (now : Int) (hnow : ∀ h, E.now h = now)
    (hlo : -2 ^ 63 + 60 ≤ now) (hhi : now < 2 ^ 63)
    (id : String) (room : Room) (info : RoomInfo)
    (hinfo : ∀ h tok p ri, E.get_room_info (h ++ [Event.get_room_info tok id p]) = Except.ok ri →
      ri.Rooms id = some info)
    (rs : List String) (m : Machine) (hrs : rs.Nodup)
    (hroom : id ∈ rs → m.cw.rooms id = some room) :
    (roomLoop E rs m).1 = none →
    ((roomLoop E rs m).2.updates.filter (fun c => decide (c.Room = id))).map Chat.content =
      (m.updates.filter (fun c => decide (c.Room = id))).map Chat.content ++
        if id ∈ rs then
          (info.Chats.filter (fun c => decide (room.receivedId < c.Id ∧ room.LastUpdate ≤ c.Tm ∧
            now - c.Tm ≤ 60))).map ChatRaw.content
        else [] := by
  induction rs generalizing m with
  | nil => intro _; simp [roomLoop]
  | cons k rest ih =>
    rw [List.nodup_cons] at hrs
    unfold roomLoop
    obtain ⟨n1, h1, hk, _⟩ := roomStep_step E k m
    split
    · intro h
      cases h
    · rename_i m1 heq
      intro hdone
      rw [heq] at h1
      by_cases hkid : k = id
      · subst hkid
        have hc := roomStep_content E now hnow hlo hhi k room info m
          (hroom (List.mem_cons_self _ _)) hinfo (by rw [heq])
        rw [heq] at hc
        simp only at hc
        rw [h1.updates, List.map_append] at hc
        have hn1 := List.append_cancel_left hc
        rw [ih m1 hrs.2 (fun h => absurd h hrs.1) hdone, h1.updates, List.filter_append,
          List.map_append, filter_room_eq_self k n1 hk, hn1]
        simp [hrs.1]
      · have hidk : id ≠ k := fun h => hkid h.symm
        have hfr : m1.cw.rooms id = m.cw.rooms id := h1.frame id (by simpa using hidk)
        rw [ih m1 hrs.2 (fun h => by rw [hfr]; exact hroom (List.mem_cons_of_mem _ h)) hdone,
          h1.updates, List.filter_append, List.map_append, filter_room_eq_nil id k hkid n1 hk]
        simp [hidk]

/-! ## One call of `GetUpdate` -/

theorem updatedRoom_nodup (cw : Chatwork) (res : GetUpdateResult) :
    (updatedRoom cw res).Nodup := by
  unfold updatedRoom
  split
  · exact (List.nodup_dedup _).filter _
  · exact List.nodup_nil

theorem updatedRoom_mem (cw : Chatwork) (res : GetUpdateResult) (id : String) :
    id ∈ updatedRoom cw res ↔
      ∃ ids, res.UpdateInfo.Rooms = some ids ∧ id ∈ ids ∧ (cw.rooms id).isSome = true := by
  unfold updatedRoom
  split
  · rename_i ids hids
    simp [hids, List.mem_filter]
  · rename_i hids
    simp [hids]

theorem GetUpdateRun_ok (E : Env) (cw : Chatwork) (hist : List Event) (res : GetUpdateResult)
    (h : E.get_update (hist ++ [Event.get_update cw.token cw.lastId]) = Except.ok res) :
    GetUpdateRun E cw hist =
      roomLoop E (updatedRoom { cw with lastId := res.LastId } res)
        { cw := { cw with lastId := res.LastId },
          hist := hist ++ [Event.get_update cw.token cw.lastId], updates := [] } := by
  unfold GetUpdateRun
  simp only [h]

theorem GetUpdateRun_error (E : Env) (cw : Chatwork) (hist : List Event) (e : Err)
    (h : E.get_update (hist ++ [Event.get_update cw.token cw.lastId]) = Except.error e) :
    GetUpdateRun E cw hist =
      (some e, { cw := cw, hist := hist ++ [Event.get_update cw.token cw.lastId],
                 updates := [] }) := by
  unfold GetUpdateRun
  simp only [h]

theorem GetUpdate_eq (E : Env) (cw : Chatwork) (hist : List Event) :
    GetUpdate E cw hist =
      ((if (GetUpdateRun E cw hist).1 = none then (GetUpdateRun E cw hist).2.updates else [],
        (GetUpdateRun E cw hist).1),
       (GetUpdateRun E cw hist).2.cw, (GetUpdateRun E cw hist).2.hist) := by
  unfold GetUpdate
  split <;> rename_i heq <;> simp [heq]

/-- What one call does to the rooms cache and which chats it returns. -/
theorem GetUpdate_facts (E : Env) (cw : Chatwork) (hist : List Event) :
    (∀ k, cw.rooms k = none → (GetUpdate E cw hist).2.1.rooms k = none) ∧
    (∀ k r0, cw.rooms k = some r0 → ∃ r1, (GetUpdate E cw hist).2.1.rooms k = some r1 ∧
      r0.receivedId ≤ r1.receivedId ∧ r0.LastUpdate ≤ r1.LastUpdate) ∧
    (∀ u ∈ (GetUpdate E cw hist).1.1, ∃ r0 r1, cw.rooms u.Room = some r0 ∧
      r0.receivedId < u.Id ∧ (GetUpdate E cw hist).2.1.rooms u.Room = some r1 ∧
      u.Id ≤ r1.receivedId) ∧
    (BatchesNodup E → ((GetUpdate E cw hist).1.1.map (fun c => (c.Room, c.Id))).Nodup) := by
  rw [GetUpdate_eq]
  simp only
  cases hupd : E.get_update (hist ++ [Event.get_update cw.token cw.lastId]) with
  | error e =>
    rw [GetUpdateRun_error E cw hist e hupd]
    simp only
    refine ⟨fun _ h => h, fun _ r0 h => ⟨r0, h, le_refl _, le_refl _⟩, ?_, ?_⟩
    · intro u hu
      simp at hu
    · intro _
      simp
  | ok res =>
    rw [GetUpdateRun_ok E cw hist res hupd]
    obtain ⟨new, hl, hnd⟩ := roomLoop_step E (updatedRoom { cw with lastId := res.LastId } res)
      { cw := { cw with lastId := res.LastId },
        hist := hist ++ [Event.get_update cw.token cw.lastId], updates := [] }
    have hup := hl.updates
    simp only [List.nil_append] at hup
    refine ⟨hl.absent, hl.mono, ?_, ?_⟩
    · intro u hu
      split at hu
      · rename_i hnone
        rw [hup] at hu
        obtain ⟨_, r0, h0, h1, _⟩ := hl.marks u hu
        obtain ⟨r1, h2, h3, _⟩ := hl.raised hnone u hu
        exact ⟨r0, r1, h0, h1, h2, h3⟩
      · simp at hu
    · intro hb
      split
      · rw [hup]
        exact hnd hb (updatedRoom_nodup _ _)
      · simp

/-! ## Sequences of calls -/

theorem polls_succ_state (E : Env) (n : Nat) (cw : Chatwork) (hist : List Event) :
    (polls E (n + 1) cw hist).2 =
      (GetUpdate E (polls E n cw hist).2.1 (polls E n cw hist).2.2).2 := rfl

theorem polls_succ_out (E : Env) (n : Nat) (cw : Chatwork) (hist : List Event) :
    (polls E (n + 1) cw hist).1 =
      (polls E n cw hist).1 ++ (GetUpdate E (polls E n cw hist).2.1 (polls E n cw hist).2.2).1.1 :=
  rfl

theorem polls_rooms (E : Env) (cw : Chatwork) (hist : List Event) (n : Nat) :
    (∀ k, cw.rooms k = none → (polls E n cw hist).2.1.rooms k = none) ∧
    (∀ k r0, cw.rooms k = some r0 → ∃ r1, (polls E n cw hist).2.1.rooms k = some r1 ∧
      r0.receivedId ≤ r1.receivedId ∧ r0.LastUpdate ≤ r1.LastUpdate) := by
  induction n with
  | zero => exact ⟨fun _ h => h, fun _ r0 h => ⟨r0, h, le_refl _, le_refl _⟩⟩
  | succ n ih =>
    obtain ⟨ha, hm, _, _⟩ := GetUpdate_facts E (polls E n cw hist).2.1 (polls E n cw hist).2.2
    rw [polls_succ_state]
    refine ⟨fun k h => ha k (ih.1 k h), fun k r0 h => ?_⟩
    obtain ⟨r1, h1, h2, h3⟩ := ih.2 k r0 h
    obtain ⟨r2, h4, h5, h6⟩ := hm k r1 h1
    exact ⟨r2, h4, le_trans h2 h5, le_trans h3 h6⟩

theorem polls_above (E : Env) (cw : Chatwork) (hist : List Event) (n : Nat) :
    ∀ u ∈ (polls E n cw hist).1, ∃ r0, cw.rooms u.Room = some r0 ∧ r0.receivedId < u.Id := by
  induction n with
  | zero => intro u hu; cases hu
  | succ n ih =>
    intro u hu
    rw [polls_succ_out] at hu
    rcases List.mem_append.1 hu with h | h
    · exact ih u h
    · obtain ⟨_, _, hk, _⟩ := GetUpdate_facts E (polls E n cw hist).2.1 (polls E n cw hist).2.2
      obtain ⟨r1, _, h1, h2, _, _⟩ := hk u h
      cases h0 : cw.rooms u.Room with
      | none => rw [(polls_rooms E cw hist n).1 _ h0] at h1; cases h1
      | some r0 =>
        obtain ⟨r, h3, h4, _⟩ := (polls_rooms E cw hist n).2 _ r0 h0
        rw [h1] at h3
        cases h3
        exact ⟨r0, rfl, lt_of_le_of_lt h4 h2⟩

theorem polls_inv (E : Env) (hb : BatchesNodup E) (cw : Chatwork) (hist : List Event) (n : Nat) :
    ((polls E n cw hist).1.map (fun c => (c.Room, c.Id))).Nodup ∧
    ∀ u ∈ (polls E n cw hist).1, ∃ r1, (polls E n cw hist).2.1.rooms u.Room = some r1 ∧
      u.Id ≤ r1.receivedId := by
  induction n with
  | zero => exact ⟨List.nodup_nil, fun u hu => by cases hu⟩
  | succ n ih =>
    obtain ⟨_, hm, hk, hnd⟩ := GetUpdate_facts E (polls E n cw hist).2.1 (polls E n cw hist).2.2
    rw [polls_succ_out, polls_succ_state]
    constructor
    · rw [List.map_append, List.nodup_append]
      refine ⟨ih.1, hnd hb, ?_⟩
      intro x hx1 hx2
      obtain ⟨u, hu, rfl⟩ := List.mem_map.1 hx1
      obtain ⟨v, hv, hvu⟩ := List.mem_map.1 hx2
      have hroom : v.Room = u.Room := congrArg Prod.fst hvu
      have hid : v.Id = u.Id := congrArg Prod.snd hvu
      obtain ⟨r1, h1, h2⟩ := ih.2 u hu
      obtain ⟨r0, _, h3, h4, _, _⟩ := hk v hv
      rw [hroom, h1] at h3
      cases h3
      omega
    · intro u hu
      rcases List.mem_append.1 hu with h | h
      · obtain ⟨r1, h1, h2⟩ := ih.2 u h
        obtain ⟨r2, h3, h4, _⟩ := hm _ r1 h1
        exact ⟨r2, h3, le_trans h2 h4⟩
      · obtain ⟨_, r1, _, _, h1, h2⟩ := hk u h
        exact ⟨r1, h1, h2⟩

/-! ## The body of the room loop when the fetch delivers a batch -/

theorem roomStep_eq (E : Env) (id : String) (m : Machine) (room : Room)
    (res : RoomInfoResult) (info : RoomInfo)
    (hroom : m.cw.rooms id = some room)
    (hres : E.get_room_info (m.hist ++ [Event.get_room_info m.cw.token id
      { C := room.ChatNum, U := 20, T := room.LastUpdate, L := 0 }]) = Except.ok res)
    (hinfo : res.Rooms id = some info) :
    roomStep E id m =
      match scanChats E id room info.Chats
          { m := { m with hist := m.hist ++ [Event.get_room_info m.cw.token id
              { C := room.ChatNum, U := 20, T := room.LastUpdate, L := 0 }] },
            lastUpdate := 0, received := 0 } with
      | (some e, s) => (some e, s.m)
      | (none, s) =>
        (none, { s.m with cw := { s.m.cw with
          rooms := put s.m.cw.rooms id (commit room s.lastUpdate s.received) } }) := by
  unfold roomStep
  rw [hroom]
  simp only [hres, hinfo]

/-! ## Scanning the same batch again -/

theorem scanChats_received_mono (E : Env) (id : String) (room : Room) (cs : List ChatRaw)
    (s : Scan) : s.received ≤ (scanChats E id room cs s).2.received := by
  obtain ⟨new, h, _⟩ := scanChats_step E id room cs s
  rw [h.received]
  exact foldl_max_ge_init _ _

theorem scanChat_covered (E : Env) (c : Int)
    (hclock : ∀ h, -2 ^ 63 + 60 ≤ E.now h ∧ E.now h ≤ c) (hc : c < 2 ^ 63)
    (id : String) (room : Room) (chat : ChatRaw) (s : Scan) :
    chat.Id ≤ room.receivedId ∨ chat.Tm < room.LastUpdate ∨ chat.Tm < c - 60 ∨
      (scanChat E id room chat s).1 ≠ none ∨
      chat.Id ≤ (scanChat E id room chat s).2.received := by
  unfold scanChat
  split
  · rename_i hrej
    rcases hrej with h | h
    · exact Or.inl h
    · exact Or.inr (Or.inl h)
  · simp only
    have h1 := hclock (s.m.hist ++ [Event.now])
    rw [wrap64_of_int64 (E.now (s.m.hist ++ [Event.now]) - 60) (by omega) (by omega)]
    split
    · rename_i hold
      exact Or.inr (Or.inr (Or.inl (by omega)))
    · split
      · exact Or.inr (Or.inr (Or.inr (Or.inl (by simp))))
      · refine Or.inr (Or.inr (Or.inr (Or.inr ?_)))
        simp only
        split <;> omega

theorem scanChats_covered (E : Env) (c : Int)
    (hclock : ∀ h, -2 ^ 63 + 60 ≤ E.now h ∧ E.now h ≤ c) (hc : c < 2 ^ 63)
    (id : String) (room : Room) (cs : List ChatRaw) (s : Scan)
    (hdone : (scanChats E id room cs s).1 = none) :
    ∀ x ∈ cs, x.Id ≤ room.receivedId ∨ x.Tm < room.LastUpdate ∨ x.Tm < c - 60 ∨
      x.Id ≤ (scanChats E id room cs s).2.received := by
  induction cs generalizing s with
  | nil => intro x hx; cases hx
  | cons chat rest ih =>
    unfold scanChats at hdone ⊢
    have hcov := scanChat_covered E c hclock hc id room chat s
    split at hdone
    · cases hdone
    · rename_i s1 heq
      rw [heq] at hcov
      intro x hx
      rcases List.mem_cons.1 hx with h | h
      · subst h
        rcases hcov with h1 | h1 | h1 | h1 | h1
        · exact Or.inl h1
        · exact Or.inr (Or.inl h1)
        · exact Or.inr (Or.inr (Or.inl h1))
        · exact absurd rfl h1
        · exact Or.inr (Or.inr (Or.inr
            (le_trans h1 (scanChats_received_mono E id room rest s1))))
      · exact ih s1 hdone x h

theorem scanChat_rejected (E : Env) (c : Int)
    (hclock : ∀ h, c ≤ E.now h ∧ E.now h < 2 ^ 63) (hc : -2 ^ 63 + 60 ≤ c)
    (id : String) (room : Room) (chat : ChatRaw) (s : Scan)
    (h0 : chat.Id ≤ room.receivedId ∨ chat.Tm < room.LastUpdate ∨ chat.Tm < c - 60) :
    (scanChat E id room chat s).1 = none ∧
    (scanChat E id room chat s).2.m.updates = s.m.updates ∧
    (scanChat E id room chat s).2.m.cw = s.m.cw ∧
    (scanChat E id room chat s).2.lastUpdate = s.lastUpdate ∧
    (scanChat E id room chat s).2.received = s.received := by
  unfold scanChat
  split
  · exact ⟨rfl, rfl, rfl, rfl, rfl⟩
  · rename_i hacc
    push_neg at hacc
    have h1 := hclock (s.m.hist ++ [Event.now])
    have hold : wrap64 (E.now (s.m.hist ++ [Event.now]) - 60) > chat.Tm := by
      rw [wrap64_of_int64 _ (by omega) (by omega)]
      rcases h0 with h | h | h <;> omega
    simp only [hold, if_true, and_self]

theorem scanChats_all_rejected (E : Env) (c : Int)
    (hclock : ∀ h, c ≤ E.now h ∧ E.now h < 2 ^ 63) (hc : -2 ^ 63 + 60 ≤ c)
    (id : String) (room : Room) (cs : List ChatRaw) (s : Scan)
    (hrej : ∀ x ∈ cs, x.Id ≤ room.receivedId ∨ x.Tm < room.LastUpdate ∨ x.Tm < c - 60) :
    (scanChats E id room cs s).1 = none ∧
    (scanChats E id room cs s).2.m.updates = s.m.updates ∧
    (scanChats E id room cs s).2.m.cw = s.m.cw ∧
    (scanChats E id room cs s).2.lastUpdate = s.lastUpdate ∧
    (scanChats E id room cs s).2.received = s.received := by
  induction cs generalizing s with
  | nil => exact ⟨rfl, rfl, rfl, rfl, rfl⟩
  | cons chat rest ih =>
    have h0 := scanChat_rejected E c hclock hc id room chat s
      (hrej chat (List.mem_cons_self _ _))
    unfold scanChats
    split
    · rename_i heq
      rw [heq] at h0
      cases h0.1
    · rename_i s1 heq
      rw [heq] at h0
      obtain ⟨h1, h2, h3, h4, h5⟩ := ih s1 (fun x hx => hrej x (List.mem_cons_of_mem _ hx))
      exact ⟨h1, h2.trans h0.2.1, h3.trans h0.2.2.1, h4.trans h0.2.2.2.1,
        h5.trans h0.2.2.2.2⟩

theorem roomStep_settled (E : Env) (c : Int)
    (hclock : ∀ h, c ≤ E.now h ∧ E.now h < 2 ^ 63) (hc : -2 ^ 63 + 60 ≤ c)
    (id : String) (room : Room) (cs : List ChatRaw) (m : Machine)
    (hroom : m.cw.rooms id = some room)
    (hrej : ∀ x ∈ cs, x.Id ≤ room.receivedId ∨ x.Tm < room.LastUpdate ∨ x.Tm < c - 60)
    (h1 : 0 ≤ room.LastUpdate) (h2 : 0 ≤ room.receivedId)
    (hbatch : ∀ h ri info, E.get_room_info h = Except.ok ri → ri.Rooms id = some info →
      info.Chats = cs) :
    (roomStep E id m).2.updates = m.updates ∧ (roomStep E id m).2.cw.rooms id = some room := by
  unfold roomStep
  rw [hroom]
  simp only
  split
  · exact ⟨rfl, hroom⟩
  · rename_i ri hri
    split
    · exact ⟨rfl, hroom⟩
    · rename_i info hinfo
      rw [hbatch _ ri info hri hinfo]
      obtain ⟨e1, e2, e3, e4, e5⟩ := scanChats_all_rejected E c hclock hc id room cs
        { m := { m with hist := m.hist ++ [Event.get_room_info m.cw.token id
            { C := room.ChatNum, U := 20, T := room.LastUpdate, L := 0 }] },
          lastUpdate := 0, received := 0 } hrej
      split
      · rename_i heq
        rw [heq] at e1
        cases e1
      · rename_i s heq
        rw [heq] at e2 e4 e5
        simp only at e2 e4 e5
        refine ⟨e2, ?_⟩
        simp only [put_same, e4, e5]
        rw [commit_eq, max_eq_left h1, max_eq_left h2]

theorem roomLoop_settled (E : Env) (c : Int)
    (hclock : ∀ h, c ≤ E.now h ∧ E.now h < 2 ^ 63) (hc : -2 ^ 63 + 60 ≤ c)
    (id : String) (room : Room) (cs : List ChatRaw)
    (hrej : ∀ x ∈ cs, x.Id ≤ room.receivedId ∨ x.Tm < room.LastUpdate ∨ x.Tm < c - 60)
    (h1 : 0 ≤ room.LastUpdate) (h2 : 0 ≤ room.receivedId)
    (hbatch : ∀ h ri info, E.get_room_info h = Except.ok ri → ri.Rooms id = some info →
      info.Chats = cs)
    (rs : List String) (m : Machine) (hroom : m.cw.rooms id = some room) :
    (roomLoop E rs m).2.updates.filter (fun u => decide (u.Room = id)) =
      m.updates.filter (fun u => decide (u.Room = id)) ∧
    (roomLoop E rs m).2.cw.rooms id = some room := by
  induction rs generalizing m with
  | nil => exact ⟨rfl, hroom⟩
  | cons k rest ih =>
    unfold roomLoop
    have hstep : (roomStep E k m).2.updates.filter (fun u => decide (u.Room = id)) =
        m.updates.filter (fun u => decide (u.Room = id)) ∧
        (roomStep E k m).2.cw.rooms id = some room := by
      by_cases hk : k = id
      · subst hk
        obtain ⟨e1, e2⟩ := roomStep_settled E c hclock hc k room cs m hroom hrej h1 h2 hbatch
        exact ⟨by rw [e1], e2⟩
      · obtain ⟨n1, hl, hn, _⟩ := roomStep_step E k m
        refine ⟨?_, ?_⟩
        · rw [hl.updates, List.filter_append, filter_room_eq_nil id k hk n1 hn,
            List.append_nil]
        · rw [hl.frame id (by simpa using fun h : id = k => hk h.symm)]
          exact hroom
    split
    · rename_i heq
      rw [heq] at hstep
      exact hstep
    · rename_i m1 heq
      rw [heq] at hstep
      obtain ⟨e1, e2⟩ := ih m1 hstep.2
      exact ⟨e1.trans hstep.1, e2⟩

/-! ## Login: assigning a snapshot into a cache -/

theorem foldl_put_notin {A V : Type} (f : A → V) (l : List (String × A))
    (m : String → Option V) (k : String) (hk : k ∉ l.map Prod.fst) :
    (l.foldl (fun c kv => put c kv.1 (f kv.2)) m) k = m k := by
  induction l generalizing m with
  | nil => rfl
  | cons x xs ih =>
    simp only [List.map_cons, List.mem_cons, not_or] at hk
    simp only [List.foldl_cons]
    rw [ih _ hk.2, put_other _ _ _ _ hk.1]

theorem foldl_put_mem {A V : Type} (f : A → V) (l : List (String × A))
    (m : String → Option V) (k : String) (a : A) (hnd : (l.map Prod.fst).Nodup)
    (hk : (k, a) ∈ l) :
    (l.foldl (fun c kv => put c kv.1 (f kv.2)) m) k = some (f a) := by
  induction l generalizing m with
  | nil => cases hk
  | cons x xs ih =>
    simp only [List.map_cons, List.nodup_cons] at hnd
    simp only [List.foldl_cons]
    rcases List.mem_cons.1 hk with h | h
    · subst h
      rw [foldl_put_notin f xs _ _ hnd.1, put_same]
    · exact ih _ hnd.2 h

/-! ## The marks a completed scan leaves, room by room -/

theorem roomStep_exact (E : Env) (id : String) (m : Machine) (r0 : Room)
    (hroom : m.cw.rooms id = some r0) (hdone : (roomStep E id m).1 = none) :
    ∃ new, (roomStep E id m).2.updates = m.updates ++ new ∧ (∀ u ∈ new, u.Room = id) ∧
      (((roomStep E id m).2.cw.rooms id = some r0 ∧ new = []) ∨
        (roomStep E id m).2.cw.rooms id =
          some { r0 with
            LastUpdate := max r0.LastUpdate ((new.map Chat.Time).foldl max 0),
            receivedId := max r0.receivedId ((new.map Chat.Id).foldl max 0) }) := by
  revert hdone
  unfold roomStep
  rw [hroom]
  simp only
  split
  · intro h
    cases h
  · rename_i ri hri
    split
    · intro _
      exact ⟨[], by simp, by simp, Or.inl ⟨hroom, rfl⟩⟩
    · rename_i info hinfo
      obtain ⟨new, hs, _⟩ := scanChats_step E id r0 info.Chats
        { m := { m with hist := m.hist ++ [Event.get_room_info m.cw.token id
            { C := r0.ChatNum, U := 20, T := r0.LastUpdate, L := 0 }] },
          lastUpdate := 0, received := 0 }
      split
      · intro h
        cases h
      · rename_i s heq
        rw [heq] at hs
        intro _
        refine ⟨new, hs.updates, fun u hu => (hs.marks u hu).1, Or.inr ?_⟩
        simp only
        rw [put_same, commit_eq, hs.lastUpdate, hs.received]

theorem roomLoop_exact (E : Env) (rs : List String) (m : Machine) (hrs : rs.Nodup)
    (hdone : (roomLoop E rs m).1 = none) :
    ∃ new, (roomLoop E rs m).2.updates = m.updates ++ new ∧
      (∀ u ∈ new, u.Room ∈ rs) ∧
      ∀ k ∈ rs, ∀ r0, m.cw.rooms k = some r0 →
        (((roomLoop E rs m).2.cw.rooms k = some r0 ∧
            new.filter (fun u => decide (u.Room = k)) = []) ∨
          (roomLoop E rs m).2.cw.rooms k =
            some { r0 with
              LastUpdate := max r0.LastUpdate
                (((new.filter (fun u => decide (u.Room = k))).map Chat.Time).foldl max 0),
              receivedId := max r0.receivedId
                (((new.filter (fun u => decide (u.Room = k))).map Chat.Id).foldl max 0) }) := by
  induction rs generalizing m with
  | nil => exact ⟨[], by simp [roomLoop], by simp, by simp⟩
  | cons k0 rest ih =>
    rw [List.nodup_cons] at hrs
    revert hdone
    unfold roomLoop
    obtain ⟨n0, hl0, _, _⟩ := roomStep_step E k0 m
    split
    · intro h
      cases h
    · rename_i m1 heq
      intro hdone
      rw [heq] at hl0
      obtain ⟨n2, hu2, hr2, hx2⟩ := ih m1 hrs.2 hdone
      obtain ⟨_, hl2, _⟩ := roomLoop_step E rest m1
      have hn2 : ∀ k, k ∉ rest → n2.filter (fun u => decide (u.Room = k)) = [] := by
        intro k hk
        rw [List.filter_eq_nil_iff]
        intro u hu
        have := hr2 u hu
        simp only [decide_eq_true_eq]
        rintro rfl
        exact hk this
      have hframe0 : ∀ k, k ≠ k0 → m1.cw.rooms k = m.cw.rooms k :=
        fun k hk => hl0.frame k (by simpa using hk)
      cases h0 : m.cw.rooms k0 with
      | none =>
        have hm1 : m1 = m := by
          have : roomStep E k0 m = (none, m) := by
            unfold roomStep
            rw [h0]
          rw [this] at heq
          cases heq
          rfl
        subst hm1
        refine ⟨n2, hu2, fun u hu => List.mem_cons_of_mem _ (hr2 u hu), ?_⟩
        intro k hk r0 hk0
        rcases List.mem_cons.1 hk with h | h
        · subst h
          rw [h0] at hk0
          cases hk0
        · exact hx2 k h r0 hk0
      | some rk0 =>
        obtain ⟨n1, hu1, hr1, hx1⟩ := roomStep_exact E k0 m rk0 h0 (by rw [heq])
        rw [heq] at hu1 hx1
        simp only at hu1 hx1
        refine ⟨n1 ++ n2, by rw [hu2, hu1, List.append_assoc], ?_, ?_⟩
        · intro u hu
          rcases List.mem_append.1 hu with h | h
          · rw [hr1 u h]
            exact List.mem_cons_self _ _
          · exact List.mem_cons_of_mem _ (hr2 u h)
        · intro k hk r0 hk0
          rcases List.mem_cons.1 hk with h | h
          · subst h
            rw [h0] at hk0
            cases hk0
            rw [List.filter_append, hn2 k hrs.1, List.append_nil, filter_room_eq_self k n1 hr1,
              hl2.frame k hrs.1]
            rcases hx1 with ⟨h1, h2⟩ | h1
            · exact Or.inl ⟨h1, h2⟩
            · exact Or.inr h1
          · have hkk0 : k ≠ k0 := by
              rintro rfl
              exact hrs.1 h
            rw [List.filter_append, filter_room_eq_nil k k0 (fun h => hkk0 h.symm) n1 hr1,
              List.nil_append]
            exact hx2 k h r0 (by rw [hframe0 k hkk0]; exact hk0)

/-! ## The loops use the server only through the clock, the fetch and the lookup -/

theorem scanChat_env (E E2 : Env) (h1 : E2.now = E.now)
    (h3 : E2.get_account_info = E.get_account_info)
    (id : String) (room : Room) (chat : ChatRaw) (s : Scan) :
    scanChat E2 id room chat s = scanChat E id room chat s := by
  unfold scanChat resolve GetAccountInfo
  rw [h1, h3]

theorem scanChats_env (E E2 : Env) (h1 : E2.now = E.now)
    (h3 : E2.get_account_info = E.get_account_info)
    (id : String) (room : Room) (cs : List ChatRaw) (s : Scan) :
    scanChats E2 id room cs s = scanChats E id room cs s := by
  induction cs generalizing s with
  | nil => rfl
  | cons chat rest ih =>
    unfold scanChats
    rw [scanChat_env E E2 h1 h3]
    split
    · rfl
    · exact ih _

theorem roomStep_env (E E2 : Env) (h1 : E2.now = E.now)
    (h2 : E2.get_room_info = E.get_room_info)
    (h3 : E2.get_account_info = E.get_account_info) (id : String) (m : Machine) :
    roomStep E2 id m = roomStep E id m := by
  unfold roomStep
  simp only [h2, scanChats_env E E2 h1 h3]

theorem roomLoop_env (E E2 : Env) (h1 : E2.now = E.now)
    (h2 : E2.get_room_info = E.get_room_info)
    (h3 : E2.get_account_info = E.get_account_info) (rs : List String) (m : Machine) :
    roomLoop E2 rs m = roomLoop E rs m := by
  induction rs generalizing m with
  | nil => rfl
  | cons id rest ih =>
    unfold roomLoop
    rw [roomStep_env E E2 h1 h2 h3]
    split
    · rfl
    · exact ih _

theorem dedup_filter_comm (p : String → Bool) (l : List String) :
    (l.filter p).dedup = (l.dedup).filter p := by
  induction l with
  | nil => rfl
  | cons a l ih =>
    by_cases ha : a ∈ l
    · rw [List.dedup_cons_of_mem ha, ← ih]
      by_cases hp : p a = true
      · rw [List.filter_cons_of_pos hp,
          List.dedup_cons_of_mem (List.mem_filter.2 ⟨ha, hp⟩)]
      · rw [List.filter_cons_of_neg hp]
    · rw [List.dedup_cons_of_not_mem ha]
      by_cases hp : p a = true
      · rw [List.filter_cons_of_pos hp, List.filter_cons_of_pos hp,
          List.dedup_cons_of_not_mem (fun h => ha (List.mem_filter.1 h).1), ih]
      · rw [List.filter_cons_of_neg hp, List.filter_cons_of_neg hp, ih]

theorem roomStep_ok_of_fetch (E : Env) (hacc : ∀ h, ∃ a, E.get_account_info h = Except.ok a)
    (id : String) (m : Machine) (room : Room) (ri : RoomInfoResult)
    (hroom : m.cw.rooms id = some room)
    (hri : E.get_room_info (m.hist ++ [Event.get_room_info m.cw.token id
      { C := room.ChatNum, U := 20, T := room.LastUpdate, L := 0 }]) = Except.ok ri) :
    (roomStep E id m).1 = none := by
  unfold roomStep
  rw [hroom]
  simp only [hri]
  split
  · rfl
  · rename_i info hinfo
    have h := scanChats_ok E hacc id room info.Chats
      { m := { m with hist := m.hist ++ [Event.get_room_info m.cw.token id
          { C := room.ChatNum, U := 20, T := room.LastUpdate, L := 0 }] },
        lastUpdate := 0, received := 0 }
    split
    · rename_i heq
      rw [heq] at h
      cases h
    · rfl

/-- C1, counterexample: rooms `A` and `B` are cached and reported, room `A` has the marks
`(100, 1000)`, the clock reads `1010`, the fetch for `A` delivers the scenario batch and the
sender resolves, so the scan of `A` ends without error and appends the chat 102, the only
candidate passing the three tests; the fetch for `B` then fails and `GetUpdate` returns the
nil list: no chat is returned for room `A`. -/
theorem GetUpdate_returns_nil_after_scan :
    twoClient.rooms "A" = some exRoom ∧
    (roomStep failEnv "A"
      { cw := { twoClient with lastId := "L1" },
        hist := [Event.get_update "tok" "L0"], updates := [] }).1 = none ∧
    (roomStep failEnv "A"
      { cw := { twoClient with lastId := "L1" },
        hist := [Event.get_update "tok" "L0"], updates := [] }).2.updates.map Chat.content =
      [(102, "c", 1010)] ∧
    (exBatch.filter (fun c => decide (exRoom.receivedId < c.Id ∧ exRoom.LastUpdate ≤ c.Tm ∧
      1010 - c.Tm ≤ 60))).map ChatRaw.content = [(102, "c", 1010)] ∧
    (GetUpdate failEnv twoClient []).1 = ([], some "boom") ∧
    (GetUpdate failEnv twoClient []).1.1.filter (fun c => decide (c.Room = "A")) = [] := by
  decide

/-- C1, amended. Let the room `id` have the stored marks `room.receivedId` and
`room.LastUpdate`, let every fetch for it deliver the candidate list `info.Chats`, and let
the clock read `now` throughout (an `int64` reading for which `now - 60` does not wrap).
First, on every machine holding that room whose fetch for it succeeds: if every sender
lookup succeeds, the loop body of `GetUpdate` for the room ends without error and the chats
it appends to the result list are all of that room and are exactly the candidates, in
delivered order, with `id > receivedId`, `tm ≥ LastUpdate` and `now - tm ≤ 60`. Second, in
every call of `GetUpdate` that reports the room: if the call returns without error, the
chats it returns for that room are exactly those candidates, the marks being those stored
before the call; and the call does return without error when every room fetch and every
sender lookup succeeds. -/
theorem GetUpdate_emits_new_and_recent (E : Env) (id : String) (room : Room) (info : RoomInfo)
    (now : Int)
    (hnow : ∀ h, E.now h = now) (hlo : -2 ^ 63 + 60 ≤ now) (hhi : now < 2 ^ 63)
    (hinfo : ∀ h tok p ri, E.get_room_info (h ++ [Event.get_room_info tok id p]) = Except.ok ri →
      ri.Rooms id = some info) :
    (∀ (m : Machine) (ri : RoomInfoResult), m.cw.rooms id = some room →
      E.get_room_info (m.hist ++ [Event.get_room_info m.cw.token id
        { C := room.ChatNum, U := 20, T := room.LastUpdate, L := 0 }]) = Except.ok ri →
      (∀ h, ∃ a, E.get_account_info h = Except.ok a) →
      (roomStep E id m).1 = none ∧
      ∃ new, (roomStep E id m).2.updates = m.updates ++ new ∧ (∀ u ∈ new, u.Room = id) ∧
        new.map Chat.content =
          (info.Chats.filter (fun c => decide (room.receivedId < c.Id ∧
            room.LastUpdate ≤ c.Tm ∧ now - c.Tm ≤ 60))).map ChatRaw.content) ∧
    (∀ (cw : Chatwork) (hist : List Event) (res : GetUpdateResult) (ids : List String),
      cw.rooms id = some room →
      E.get_update (hist ++ [Event.get_update cw.token cw.lastId]) = Except.ok res →
      res.UpdateInfo.Rooms = some ids → id ∈ ids →
      ((GetUpdate E cw hist).1.2 = none →
        ((GetUpdate E cw hist).1.1.filter (fun c => decide (c.Room = id))).map Chat.content =
          (info.Chats.filter (fun c => decide (room.receivedId < c.Id ∧
            room.LastUpdate ≤ c.Tm ∧ now - c.Tm ≤ 60))).map ChatRaw.content) ∧
      ((∀ h, ∃ ri, E.get_room_info h = Except.ok ri) →
        (∀ h, ∃ a, E.get_account_info h = Except.ok a) →
        (GetUpdate E cw hist).1.2 = none)) := by
  constructor
  · intro m ri hroom hri hacc
    have hok := roomStep_ok_of_fetch E hacc id m room ri hroom hri
    obtain ⟨new, hl, hr, _⟩ := roomStep_step E id m
    have hc := roomStep_content E now hnow hlo hhi id room info m hroom hinfo hok
    rw [hl.updates, List.map_append] at hc
    exact ⟨hok, new, hl.updates, hr, List.append_cancel_left hc⟩
  · intro cw hist res ids hroom hupd hids hid
    have hmem : id ∈ updatedRoom { cw with lastId := res.LastId } res :=
      (updatedRoom_mem _ _ _).2 ⟨ids, hids, hid, by simp [hroom]⟩
    rw [GetUpdate_eq, GetUpdateRun_ok E cw hist res hupd]
    simp only
    constructor
    · intro hdone
      have h := roomLoop_content E now hnow hlo hhi id room info hinfo
        (updatedRoom { cw with lastId := res.LastId } res)
        { cw := { cw with lastId := res.LastId },
          hist := hist ++ [Event.get_update cw.token cw.lastId], updates := [] }
        (updatedRoom_nodup _ _) (fun _ => hroom) hdone
      simpa [hdone, hmem] using h
    · intro hfetch hacc
      exact roomLoop_ok E hfetch hacc _ _

/-- Witness of C1 amended: marks `(100, 1000)`, time `1010`, candidates
`[(99,1005),(101,999),(102,1010)]`: the scan appends only the chat with id 102, and the
call returns only that chat. -/
theorem GetUpdate_emits_new_and_recent_witness :
    (roomStep exEnv "R" { cw := exClient, hist := [], updates := [] }).1 = none ∧
    (roomStep exEnv "R" { cw := exClient, hist := [], updates := [] }).2.updates.map
      Chat.content = [(102, "c", 1010)] ∧
    (GetUpdate exEnv exClient []).1.2 = none ∧
    ((GetUpdate exEnv exClient []).1.1.filter (fun c => decide (c.Room = "R"))).map
      Chat.content = [(102, "c", 1010)] := by
  have h := GetUpdate_emits_new_and_recent exEnv "R" exRoom exInfo 1010 (fun _ => rfl)
    (by decide) (by decide)
    (fun _ _ _ ri heq => by
      have h1 : Except.ok { Rooms := put (fun _ => none) "R" exInfo } = Except.ok ri := heq
      injection h1 with h2
      subst h2
      rfl)
  obtain ⟨hs, new, hu, _, hc⟩ := h.1 { cw := exClient, hist := [], updates := [] }
    { Rooms := put (fun _ => none) "R" exInfo } rfl rfl (fun _ => ⟨_, rfl⟩)
  have hg := h.2 exClient [] exUpdate ["R"] rfl rfl rfl (by simp)
  have hok := hg.2 (fun _ => ⟨_, rfl⟩) (fun _ => ⟨_, rfl⟩)
  refine ⟨hs, ?_, hok, (hg.1 hok).trans (by decide)⟩
  rw [hu, List.nil_append, hc]
  decide

/-- C2, counterexample: a fresh client logs in and the snapshot holds room `R` with
`LastUpdate = -5`; the next `GetUpdate` receives an empty batch for `R`, so no message is
accepted and no chat is returned; yet afterwards `LastUpdate` is `0`. -/
theorem GetUpdate_raises_negative_mark :
    (Login negEnv (New "user" "pw") []).1 = none ∧
    ((Login negEnv (New "user" "pw") []).2.1.rooms "R").map Room.LastUpdate = some (-5) ∧
    (GetUpdate negEnv (Login negEnv (New "user" "pw") []).2.1
      (Login negEnv (New "user" "pw") []).2.2).1 = ([], none) ∧
    ((GetUpdate negEnv (Login negEnv (New "user" "pw") []).2.1
      (Login negEnv (New "user" "pw") []).2.2).2.1.rooms "R").map Room.LastUpdate = some 0 := by
  decide

/-- C2, amended. When the loop body of `GetUpdate` for the cached room `id` receives a batch
and scans it to completion, the chats `new` it appends are its accepted messages, and
afterwards the `LastUpdate` of the room is the maximum of its stored `LastUpdate`, `0` and the
times of `new`, and its `receivedId` the maximum of its stored `receivedId`, `0` and the ids
of `new`; nothing else of the room changes, rejected messages enter neither maximum, and
when nothing is accepted a room whose two marks are non-negative is unchanged. -/
theorem roomStep_commits_maxima (E : Env) (id : String) (m : Machine) (room : Room)
    (res : RoomInfoResult) (info : RoomInfo)
    (hroom : m.cw.rooms id = some room)
    (hres : E.get_room_info (m.hist ++ [Event.get_room_info m.cw.token id
      { C := room.ChatNum, U := 20, T := room.LastUpdate, L := 0 }]) = Except.ok res)
    (hinfo : res.Rooms id = some info)
    (hdone : (roomStep E id m).1 = none) :
    ∃ new, (roomStep E id m).2.updates = m.updates ++ new ∧
      (new.map Chat.Id).Sublist (info.Chats.map ChatRaw.Id) ∧
      (roomStep E id m).2.cw.rooms id =
        some { room with
          LastUpdate := max room.LastUpdate ((new.map Chat.Time).foldl max 0),
          receivedId := max room.receivedId ((new.map Chat.Id).foldl max 0) } ∧
      (new = [] → 0 ≤ room.LastUpdate → 0 ≤ room.receivedId →
        (roomStep E id m).2.cw.rooms id = some room) := by
  rw [roomStep_eq E id m room res info hroom hres hinfo] at hdone ⊢
  obtain ⟨new, hs, hsub⟩ := scanChats_step E id room info.Chats
    { m := { m with hist := m.hist ++ [Event.get_room_info m.cw.token id
        { C := room.ChatNum, U := 20, T := room.LastUpdate, L := 0 }] },
      lastUpdate := 0, received := 0 }
  split at hdone
  · cases hdone
  · rename_i s heq
    rw [heq] at hs
    have hval : put s.m.cw.rooms id (commit room s.lastUpdate s.received) id =
        some { room with
          LastUpdate := max room.LastUpdate ((new.map Chat.Time).foldl max 0),
          receivedId := max room.receivedId ((new.map Chat.Id).foldl max 0) } := by
      rw [put_same, commit_eq, hs.lastUpdate, hs.received]
    refine ⟨new, hs.updates, hsub, hval, ?_⟩
    intro hnew h1 h2
    simp only
    rw [hval, hnew]
    simp [max_eq_left h1, max_eq_left h2]

/-- Witness of C2 amended: stored `(100, 1000)` with candidates
`[(99,1005),(101,999),(102,1010)]` at time `1010` becomes `(102, 1010)`. -/
theorem roomStep_commits_maxima_witness :
    (roomStep exEnv "R" { cw := exClient, hist := [], updates := [] }).2.updates.map
      Chat.content = [(102, "c", 1010)] ∧
    ∃ new, (roomStep exEnv "R" { cw := exClient, hist := [], updates := [] }).2.updates =
        [] ++ new ∧
      (roomStep exEnv "R" { cw := exClient, hist := [], updates := [] }).2.cw.rooms "R" =
        some { exRoom with
          LastUpdate := max 1000 ((new.map Chat.Time).foldl max 0),
          receivedId := max 100 ((new.map Chat.Id).foldl max 0) } ∧
      (roomStep exEnv "R" { cw := exClient, hist := [], updates := [] }).2.cw.rooms "R" =
        some { exRoom with LastUpdate := 1010, receivedId := 102 } := by
  obtain ⟨new, h1, _, h3, _⟩ := roomStep_commits_maxima exEnv "R"
    { cw := exClient, hist := [], updates := [] } exRoom
    { Rooms := put (fun _ => none) "R" exInfo } exInfo rfl rfl rfl (by decide)
  exact ⟨by decide, new, h1, h3, by decide⟩

/-- C3. In every sequence of `GetUpdate` calls, under every behaviour of server and clock
and whether the calls succeed or return errors, a cached room is still cached after the
next call and its `receivedId` and `LastUpdate` are at least what they were before it. -/
theorem polls_marks_never_decrease (E : Env) (n : Nat) (cw : Chatwork) (hist : List Event)
    (id : String) (r0 : Room) (h : (polls E n cw hist).2.1.rooms id = some r0) :
    ∃ r1, (polls E (n + 1) cw hist).2.1.rooms id = some r1 ∧
      r0.receivedId ≤ r1.receivedId ∧ r0.LastUpdate ≤ r1.LastUpdate := by
  rw [polls_succ_state]
  exact (GetUpdate_facts E (polls E n cw hist).2.1 (polls E n cw hist).2.2).2.1 id r0 h

/-- Witness of C3: the room `R` of the scenario across its second call. -/
theorem polls_marks_never_decrease_witness :
    (polls exEnv 1 exClient []).2.1.rooms "R" =
        some { exRoom with LastUpdate := 1010, receivedId := 102 } ∧
    ∃ r1, (polls exEnv 2 exClient []).2.1.rooms "R" = some r1 ∧
      (102 : Int) ≤ r1.receivedId ∧ (1010 : Int) ≤ r1.LastUpdate :=
  ⟨by decide,
   polls_marks_never_decrease exEnv 1 exClient [] "R"
     { exRoom with LastUpdate := 1010, receivedId := 102 } (by decide)⟩

/-- C4, counterexample: one call whose batch for room `R` lists id 200 twice returns two
chats of room `R` with id 200. -/
theorem polls_duplicate_in_batch :
    (polls dupEnv 1 exClient []).1.map (fun c => (c.Room, c.Id)) = [("R", 200), ("R", 200)] ∧
    ¬ ((polls dupEnv 1 exClient []).1.map (fun c => (c.Room, c.Id))).Nodup := by
  decide

/-- C4, amended. When no room batch lists a message id more than once, then in every
sequence of `GetUpdate` calls, under every behaviour of server and clock, the concatenation
of the returned chat lists has no two chats with the same room and the same id. -/
theorem polls_no_duplicate_delivery (E : Env) (hb : BatchesNodup E) (n : Nat) (cw : Chatwork)
    (hist : List Event) :
    ((polls E n cw hist).1.map (fun c => (c.Room, c.Id))).Nodup :=
  (polls_inv E hb cw hist n).1

/-- Witness of C4 amended: three calls against the scenario server, which answers the
same batch every time; only the first call returns a chat. -/
theorem polls_no_duplicate_delivery_witness :
    (polls exEnv 3 exClient []).1.map (fun c => (c.Room, c.Id)) = [("R", 102)] ∧
    ((polls exEnv 3 exClient []).1.map (fun c => (c.Room, c.Id))).Nodup :=
  ⟨by decide,
   polls_no_duplicate_delivery exEnv
     (fun _ ri id info heq hinfo => by
       have h1 : Except.ok { Rooms := put (fun _ => none) "R" exInfo } = Except.ok ri := heq
       injection h1 with h2
       subst h2
       simp only [put] at hinfo
       split at hinfo
       · cases hinfo
         decide
       · cases hinfo)
     3 exClient []⟩

/-- C5. Let the loop body of a first `GetUpdate` for the cached room `id` receive the batch
`info.Chats` and scan it to completion, every clock reading of that poll being at most `c`.
Let a second `GetUpdate` start from a client holding the room as that scan left it, with
clock readings of at least `c` (all readings being `int64` values for which `now - 60` does
not wrap) and with every batch delivered for that room equal to `info.Chats`. Then the
second call returns no chat of that room, whatever else it does and however it ends, and
the room is afterwards exactly as it was after the first poll. -/
theorem GetUpdate_same_batch_again (E1 E2 : Env) (c : Int) (id : String) (m : Machine)
    (room : Room) (res : RoomInfoResult) (info : RoomInfo)
    (cw2 : Chatwork) (hist2 : List Event)
    (hclock1 : ∀ h, -2 ^ 63 + 60 ≤ E1.now h ∧ E1.now h ≤ c)
    (hclock2 : ∀ h, c ≤ E2.now h ∧ E2.now h < 2 ^ 63)
    (hroom : m.cw.rooms id = some room)
    (hres : E1.get_room_info (m.hist ++ [Event.get_room_info m.cw.token id
      { C := room.ChatNum, U := 20, T := room.LastUpdate, L := 0 }]) = Except.ok res)
    (hinfo : res.Rooms id = some info)
    (hdone : (roomStep E1 id m).1 = none)
    (hsame : cw2.rooms id = (roomStep E1 id m).2.cw.rooms id)
    (hbatch : ∀ h ri info2, E2.get_room_info h = Except.ok ri → ri.Rooms id = some info2 →
      info2.Chats = info.Chats) :
    (GetUpdate E2 cw2 hist2).1.1.filter (fun u => decide (u.Room = id)) = [] ∧
    (GetUpdate E2 cw2 hist2).2.1.rooms id = (roomStep E1 id m).2.cw.rooms id := by
  have hc1 := hclock1 []
  have hc2 := hclock2 []
  rw [← hsame]
  rw [roomStep_eq E1 id m room res info hroom hres hinfo] at hdone
  obtain ⟨new, hs, _⟩ := scanChats_step E1 id room info.Chats
    { m := { m with hist := m.hist ++ [Event.get_room_info m.cw.token id
        { C := room.ChatNum, U := 20, T := room.LastUpdate, L := 0 }] },
      lastUpdate := 0, received := 0 }
  have hcov := scanChats_covered E1 c hclock1 (by omega) id room info.Chats
    { m := { m with hist := m.hist ++ [Event.get_room_info m.cw.token id
        { C := room.ChatNum, U := 20, T := room.LastUpdate, L := 0 }] },
      lastUpdate := 0, received := 0 }
  split at hdone
  · cases hdone
  · rename_i s heq
    rw [heq] at hs hcov
    rw [roomStep_eq E1 id m room res info hroom hres hinfo, heq] at hsame
    simp only [put_same] at hsame
    have hlu : 0 ≤ s.lastUpdate := by rw [hs.lastUpdate]; exact foldl_max_ge_init _ _
    have hrc : 0 ≤ s.received := by rw [hs.received]; exact foldl_max_ge_init _ _
    have hrej : ∀ x ∈ info.Chats,
        x.Id ≤ (commit room s.lastUpdate s.received).receivedId ∨
        x.Tm < (commit room s.lastUpdate s.received).LastUpdate ∨ x.Tm < c - 60 := by
      intro x hx
      rw [commit_eq]
      rcases hcov rfl x hx with h | h | h | h
      · exact Or.inl (le_trans h (le_max_left _ _))
      · exact Or.inr (Or.inl (lt_of_lt_of_le h (le_max_left _ _)))
      · exact Or.inr (Or.inr h)
      · exact Or.inl (le_trans h (le_max_right _ _))
    have e1 : 0 ≤ (commit room s.lastUpdate s.received).LastUpdate := by
      rw [commit_eq]; exact le_trans hlu (le_max_right _ _)
    have e2 : 0 ≤ (commit room s.lastUpdate s.received).receivedId := by
      rw [commit_eq]; exact le_trans hrc (le_max_right _ _)
    rw [GetUpdate_eq]
    simp only
    cases hupd : E2.get_update (hist2 ++ [Event.get_update cw2.token cw2.lastId]) with
    | error e =>
      rw [GetUpdateRun_error E2 cw2 hist2 e hupd]
      simp
    | ok res2 =>
      rw [GetUpdateRun_ok E2 cw2 hist2 res2 hupd]
      obtain ⟨h1, h2⟩ := roomLoop_settled E2 c hclock2 (by omega) id
        (commit room s.lastUpdate s.received) info.Chats hrej e1 e2 hbatch
        (updatedRoom { cw2 with lastId := res2.LastId } res2)
        { cw := { cw2 with lastId := res2.LastId },
          hist := hist2 ++ [Event.get_update cw2.token cw2.lastId], updates := [] } hsame
      refine ⟨?_, h2.trans hsame.symm⟩
      split
      · simpa using h1
      · rfl

/-- Witness of C5: the scenario batch is scanned at time `1010`, leaving the marks
`(102, 1010)`; a following call that receives the same batch at time `1010` returns no chat
of room `R` and leaves the marks `(102, 1010)`. -/
theorem GetUpdate_same_batch_again_witness :
    (roomStep exEnv "R" { cw := exClient, hist := [], updates := [] }).2.cw.rooms "R" =
      some { exRoom with LastUpdate := 1010, receivedId := 102 } ∧
    (GetUpdate exEnv (roomStep exEnv "R" { cw := exClient, hist := [], updates := [] }).2.cw
      (roomStep exEnv "R" { cw := exClient, hist := [], updates := [] }).2.hist).1.1.filter
        (fun u => decide (u.Room = "R")) = [] ∧
    (GetUpdate exEnv (roomStep exEnv "R" { cw := exClient, hist := [], updates := [] }).2.cw
      (roomStep exEnv "R" { cw := exClient, hist := [], updates := [] }).2.hist).2.1.rooms "R" =
      (roomStep exEnv "R" { cw := exClient, hist := [], updates := [] }).2.cw.rooms "R" :=
  have h := GetUpdate_same_batch_again exEnv exEnv 1010 "R"
    { cw := exClient, hist := [], updates := [] } exRoom
    { Rooms := put (fun _ => none) "R" exInfo } exInfo
    (roomStep exEnv "R" { cw := exClient, hist := [], updates := [] }).2.cw
    (roomStep exEnv "R" { cw := exClient, hist := [], updates := [] }).2.hist
    (fun _ => ⟨(by decide : -(2 : Int) ^ 63 + 60 ≤ 1010), le_refl _⟩)
    (fun _ => ⟨le_refl _, (by decide : (1010 : Int) < 2 ^ 63)⟩)
    rfl rfl rfl (by decide) rfl
    (fun _ ri info2 heq hinfo2 => by
      have h1 : Except.ok { Rooms := put (fun _ => none) "R" exInfo } = Except.ok ri := heq
      injection h1 with h2
      subst h2
      have h3 : some exInfo = some info2 := hinfo2
      injection h3 with h4
      subst h4
      rfl)
  ⟨by decide, h.1, h.2⟩

/-- C6, the code at the failing input. The sender 7 of the accepted chat 102 is not cached
and the lookup succeeds with no person: the call returns without error a chat whose
`Person` is nil. When a second chat of the same sender follows and the lookup then returns
the account, the first chat is still returned with a nil `Person` although the people
cache holds the account under the sender id at the time of return. -/
theorem GetUpdate_returns_nil_person :
    (GetUpdate noPersonEnv exClient []).1 =
      ([{ Id := 102, Message := "c", Person := none, Room := "R", Time := 1010 }], none) ∧
    (GetUpdate lateEnv exClient []).1 =
      ([{ Id := 102, Message := "c", Person := none, Room := "R", Time := 1010 },
        { Id := 103, Message := "d", Person := some exPerson, Room := "R", Time := 1010 }],
       none) ∧
    (GetUpdate lateEnv exClient []).2.1.people (Itoa 7) = some exPerson := by
  decide

/-- C7, the code at the failing input. The sender 7 is not cached and the lookup returns
the accounts 7 and 8. After the call nothing is cached under the key of account 8, and the
key of the sender holds whichever account the loop visited last: account 8 in one order
(so account 7 is not cached at all and the chat carries account 8), account 7 in the
other. -/
theorem GetUpdate_caches_under_sender_key :
    (GetUpdate twoPersonsEnv exClient []).1.2 = none ∧
    (GetUpdate twoPersonsEnv exClient []).2.1.people (Itoa 8) = none ∧
    (GetUpdate twoPersonsEnv exClient []).2.1.people (Itoa 7) = some exPerson8 ∧
    (GetUpdate twoPersonsEnv exClient []).1.1.map Chat.Person = [some exPerson8] ∧
    (GetUpdate twoPersonsEnvRev exClient []).2.1.people (Itoa 8) = none ∧
    (GetUpdate twoPersonsEnvRev exClient []).2.1.people (Itoa 7) = some exPerson := by
  decide

/-- C8, counterexample: a fresh client logs in twice; the first snapshot holds room `R` and
account 7, the second only room `S` and account 8. After the second login room `R` and
account 7 are still cached although the second snapshot does not contain them. -/
theorem Login_keeps_stale_entries :
    (Login loginEnv (New "user" "pw") []).1 = none ∧
    (Login loginEnv (Login loginEnv (New "user" "pw") []).2.1
      (Login loginEnv (New "user" "pw") []).2.2).1 = none ∧
    "R" ∉ exLogin2.Rooms.map Prod.fst ∧ "7" ∉ exLogin2.People.map Prod.fst ∧
    (Login loginEnv (Login loginEnv (New "user" "pw") []).2.1
      (Login loginEnv (New "user" "pw") []).2.2).2.1.rooms "R" = some exRoomDat.toRoom ∧
    (Login loginEnv (Login loginEnv (New "user" "pw") []).2.1
      (Login loginEnv (New "user" "pw") []).2.2).2.1.people "7" = some exPerson := by
  decide

/-- C8, amended. After a successful `Login` with response `res` (whose two snapshot maps
have distinct keys, being maps): the cursor `lastId` is `res.LastId`; every entry of the
room snapshot is in the rooms cache with the values of the snapshot and `receivedId = 0`, every
entry of the people snapshot is in the people cache; and under every key absent from the
snapshot the cache holds what it held before the call, so that the caches are exactly the
snapshot when they were empty before, as on a client made by `New`. -/
theorem Login_merges_snapshot (E : Env) (cw : Chatwork) (hist : List Event) (res : LoginResult)
    (hres : E.api_login (hist ++ [Event.api_login cw.token cw.username cw.password]) =
      Except.ok res)
    (hr : (res.Rooms.map Prod.fst).Nodup) (hp : (res.People.map Prod.fst).Nodup) :
    (Login E cw hist).1 = none ∧
    (Login E cw hist).2.1.lastId = res.LastId ∧
    (∀ k d, (k, d) ∈ res.Rooms → (Login E cw hist).2.1.rooms k = some d.toRoom) ∧
    (∀ k p, (k, p) ∈ res.People → (Login E cw hist).2.1.people k = some p) ∧
    (∀ k, k ∉ res.Rooms.map Prod.fst → (Login E cw hist).2.1.rooms k = cw.rooms k) ∧
    (∀ k, k ∉ res.People.map Prod.fst → (Login E cw hist).2.1.people k = cw.people k) := by
  unfold Login
  simp only [hres]
  refine ⟨trivial, trivial, ?_, ?_, ?_, ?_⟩
  · intro k d hk
    exact foldl_put_mem RoomDat.toRoom res.Rooms cw.rooms k d hr hk
  · intro k p hk
    exact foldl_put_mem id res.People cw.people k p hp hk
  · intro k hk
    exact foldl_put_notin RoomDat.toRoom res.Rooms cw.rooms k hk
  · intro k hk
    exact foldl_put_notin id res.People cw.people k hk

/-- Witness of C8 amended: the first login of a fresh client caches room `R` and account
7 of the snapshot and nothing under the keys `S` and `8`, which the snapshot lacks. -/
theorem Login_merges_snapshot_witness :
    (Login loginEnv (New "user" "pw") []).1 = none ∧
    (Login loginEnv (New "user" "pw") []).2.1.lastId = "L1" ∧
    (Login loginEnv (New "user" "pw") []).2.1.rooms "R" = some exRoomDat.toRoom ∧
    (Login loginEnv (New "user" "pw") []).2.1.people "7" = some exPerson ∧
    (Login loginEnv (New "user" "pw") []).2.1.rooms "S" = none ∧
    (Login loginEnv (New "user" "pw") []).2.1.people "8" = none :=
  have h := Login_merges_snapshot loginEnv (New "user" "pw") [] exLogin1 rfl
    (by decide) (by decide)
  ⟨h.1, h.2.1, h.2.2.1 "R" exRoomDat (by decide), h.2.2.2.1 "7" exPerson (by decide),
   h.2.2.2.2.1 "S" (by decide), h.2.2.2.2.2 "8" (by decide)⟩

/-- C9. In every call of `GetUpdate` whose `get_update` request succeeds with `res`: the
cursor `lastId` afterwards is `res.LastId`, whatever rooms are reported and however the call
ends; the room fetches issued by the call are for ids that are reported and are keys of the
rooms cache; no key is added to the rooms cache; when no reported id is cached the call
returns no chats and no error and its only request is the `get_update` one; the call returns
no error when every room fetch and every sender lookup succeeds, whatever ids are reported;
and the reported ids absent from the cache have no effect at all: against a server that
differs only in reporting the same list without them, the call returns the same result and
leaves the same client and the same history of requests. -/
theorem GetUpdate_cursor_and_fetches (E : Env) (cw : Chatwork) (hist : List Event)
    (res : GetUpdateResult)
    (hupd : E.get_update (hist ++ [Event.get_update cw.token cw.lastId]) = Except.ok res) :
    (GetUpdate E cw hist).2.1.lastId = res.LastId ∧
    (∃ l, fetched (GetUpdate E cw hist).2.2 = fetched hist ++ l ∧
      ∀ id ∈ l, (∃ ids, res.UpdateInfo.Rooms = some ids ∧ id ∈ ids) ∧ cw.rooms id ≠ none) ∧
    (∀ id, cw.rooms id = none → (GetUpdate E cw hist).2.1.rooms id = none) ∧
    ((∀ ids, res.UpdateInfo.Rooms = some ids → ∀ id ∈ ids, cw.rooms id = none) →
      (GetUpdate E cw hist).1 = ([], none) ∧
      (GetUpdate E cw hist).2.2 = hist ++ [Event.get_update cw.token cw.lastId]) ∧
    ((∀ h, ∃ ri, E.get_room_info h = Except.ok ri) →
      (∀ h, ∃ a, E.get_account_info h = Except.ok a) → (GetUpdate E cw hist).1.2 = none) ∧
    (∀ ids, res.UpdateInfo.Rooms = some ids →
      ∀ (E2 : Env) (res2 : GetUpdateResult), E2.now = E.now →
        E2.get_room_info = E.get_room_info → E2.get_account_info = E.get_account_info →
        E2.get_update (hist ++ [Event.get_update cw.token cw.lastId]) = Except.ok res2 →
        res2.LastId = res.LastId →
        res2.UpdateInfo.Rooms = some (ids.filter (fun id => (cw.rooms id).isSome)) →
        GetUpdate E2 cw hist = GetUpdate E cw hist) := by
  refine ⟨?_, ?_, ?_, ?_, ?_, ?_⟩
  · rw [GetUpdate_eq, GetUpdateRun_ok E cw hist res hupd]
    obtain ⟨new, hl, _⟩ := roomLoop_step E (updatedRoom { cw with lastId := res.LastId } res)
      { cw := { cw with lastId := res.LastId },
        hist := hist ++ [Event.get_update cw.token cw.lastId], updates := [] }
    exact hl.lastId
  · rw [GetUpdate_eq, GetUpdateRun_ok E cw hist res hupd]
    obtain ⟨new, hl, _⟩ := roomLoop_step E (updatedRoom { cw with lastId := res.LastId } res)
      { cw := { cw with lastId := res.LastId },
        hist := hist ++ [Event.get_update cw.token cw.lastId], updates := [] }
    obtain ⟨l, hsub, hf⟩ := hl.fetches
    refine ⟨l, by simpa [fetched_append, fetched] using hf, ?_⟩
    intro id hid
    obtain ⟨ids, h1, h2, h3⟩ := (updatedRoom_mem _ _ _).1 (hsub.subset hid)
    refine ⟨⟨ids, h1, h2⟩, ?_⟩
    intro h
    simp [h] at h3
  · rw [GetUpdate_eq, GetUpdateRun_ok E cw hist res hupd]
    obtain ⟨new, hl, _⟩ := roomLoop_step E (updatedRoom { cw with lastId := res.LastId } res)
      { cw := { cw with lastId := res.LastId },
        hist := hist ++ [Event.get_update cw.token cw.lastId], updates := [] }
    exact hl.absent
  · intro hall
    have hnil : updatedRoom { cw with lastId := res.LastId } res = [] := by
      rw [List.eq_nil_iff_forall_not_mem]
      intro id hid
      obtain ⟨ids, h1, h2, h3⟩ := (updatedRoom_mem _ _ _).1 hid
      simp [hall ids h1 id h2] at h3
    rw [GetUpdate_eq, GetUpdateRun_ok E cw hist res hupd, hnil]
    simp [roomLoop]
  · intro hfetch hacc
    rw [GetUpdate_eq, GetUpdateRun_ok E cw hist res hupd]
    exact roomLoop_ok E hfetch hacc _ _
  · intro ids hids E2 res2 e1 e2 e3 hupd2 hl hr
    have hrs : updatedRoom { cw with lastId := res.LastId } res2 =
        updatedRoom { cw with lastId := res.LastId } res := by
      unfold updatedRoom
      simp only [hids, hr]
      rw [dedup_filter_comm, List.filter_filter]
      simp
    unfold GetUpdate
    rw [GetUpdateRun_ok E2 cw hist res2 hupd2, GetUpdateRun_ok E cw hist res hupd, hl, hrs,
      roomLoop_env E E2 e1 e2 e3]

/-- Witness of C9: the response reports only room `42`, which is not cached: no chats, no
error, no room fetch (the only request is `get_update`), the cursor is the new value and
room `42` is still not cached. When the response reports `42` and the cached room `R`, the
call returns the chat 102 of `R` without error, exactly as when only `R` is reported. -/
theorem GetUpdate_cursor_and_fetches_witness :
    (GetUpdate env42 exClient []).1 = ([], none) ∧
    (GetUpdate env42 exClient []).2.2 = [Event.get_update "tok" "L0"] ∧
    (GetUpdate env42 exClient []).2.1.lastId = "L1" ∧
    (GetUpdate env42 exClient []).2.1.rooms "42" = none ∧
    (GetUpdate mixedEnv exClient []).1.2 = none ∧
    (GetUpdate mixedEnv exClient []).1.1.map Chat.content = [(102, "c", 1010)] ∧
    fetched (GetUpdate mixedEnv exClient []).2.2 = ["R"] ∧
    GetUpdate exEnv exClient [] = GetUpdate mixedEnv exClient [] := by
  have h := GetUpdate_cursor_and_fetches env42 exClient []
    { LastId := "L1", UpdateInfo := { Num := 1, Rooms := some ["42"] } } rfl
  have h4 := h.2.2.2.1 (fun ids hids id hid => by
    simp only [Option.some.injEq] at hids
    subst hids
    simp only [List.mem_singleton] at hid
    subst hid
    rfl)
  have g := GetUpdate_cursor_and_fetches mixedEnv exClient []
    { LastId := "L1", UpdateInfo := { Num := 2, Rooms := some ["42", "R"] } } rfl
  exact ⟨h4.1, h4.2, h.1, h.2.2.1 "42" rfl,
    g.2.2.2.2.1 (fun _ => ⟨_, rfl⟩) (fun _ => ⟨_, rfl⟩), by decide, by decide,
    g.2.2.2.2.2 ["42", "R"] rfl exEnv exUpdate rfl rfl rfl rfl rfl (by decide)⟩

/-- C10. Let a call of `GetUpdate` scan the changed rooms `pre` to completion, reaching
the machine `m1` whose `updates` are the chats accepted so far, and then stop with the error
`e` (of a room fetch or of a sender lookup) in one of the remaining rooms `rest`. Then the
call returns the nil list with `e`; each room of `pre` is left either untouched with no
chat accepted (its fetch did not deliver it) or with `LastUpdate` and `receivedId` raised to
the maxima of `0`, the stored mark and the times and ids of its accepted chats; these marks
are at least the id and time of every accepted chat; and in no sequence of later `GetUpdate`
calls, whatever the server sends, is a chat with the room and id of an accepted one
returned. -/
theorem GetUpdate_error_drops_accepted (E : Env) (cw : Chatwork) (hist : List Event)
    (res : GetUpdateResult) (pre rest : List String) (m1 m2 : Machine) (e : Err)
    (hupd : E.get_update (hist ++ [Event.get_update cw.token cw.lastId]) = Except.ok res)
    (hsplit : updatedRoom { cw with lastId := res.LastId } res = pre ++ rest)
    (hpre : roomLoop E pre
      { cw := { cw with lastId := res.LastId },
        hist := hist ++ [Event.get_update cw.token cw.lastId], updates := [] } = (none, m1))
    (hrest : roomLoop E rest m1 = (some e, m2)) :
    GetUpdate E cw hist = (([], some e), m2.cw, m2.hist) ∧
    (∀ k ∈ pre, ∀ r0, cw.rooms k = some r0 →
      ((m2.cw.rooms k = some r0 ∧ m1.updates.filter (fun u => decide (u.Room = k)) = []) ∨
        m2.cw.rooms k =
          some { r0 with
            LastUpdate := max r0.LastUpdate
              (((m1.updates.filter (fun u => decide (u.Room = k))).map Chat.Time).foldl max 0),
            receivedId := max r0.receivedId
              (((m1.updates.filter (fun u => decide (u.Room = k))).map Chat.Id).foldl
                max 0) })) ∧
    ∀ u ∈ m1.updates,
      (∃ r, m2.cw.rooms u.Room = some r ∧ u.Id ≤ r.receivedId ∧ u.Time ≤ r.LastUpdate) ∧
      ∀ (E2 : Env) (n : Nat), ∀ v ∈ (polls E2 n m2.cw m2.hist).1,
        ¬ (v.Room = u.Room ∧ v.Id = u.Id) := by
  have hrun : GetUpdateRun E cw hist = (some e, m2) := by
    rw [GetUpdateRun_ok E cw hist res hupd, hsplit, roomLoop_append, hpre]
    exact hrest
  have hnd : (pre ++ rest).Nodup := hsplit ▸ updatedRoom_nodup _ _
  obtain ⟨n1, hl1, _⟩ := roomLoop_step E pre
    { cw := { cw with lastId := res.LastId },
      hist := hist ++ [Event.get_update cw.token cw.lastId], updates := [] }
  obtain ⟨n2, hl2, _⟩ := roomLoop_step E rest m1
  rw [hpre] at hl1
  rw [hrest] at hl2
  have hraised : ∀ u ∈ m1.updates,
      ∃ r, m2.cw.rooms u.Room = some r ∧ u.Id ≤ r.receivedId ∧ u.Time ≤ r.LastUpdate := by
    intro u hu
    rw [hl1.updates, List.nil_append] at hu
    obtain ⟨r1, h1, h2, h3⟩ := hl1.raised rfl u hu
    obtain ⟨r2, h4, h5, h6⟩ := hl2.mono _ r1 h1
    exact ⟨r2, h4, le_trans h2 h5, le_trans h3 h6⟩
  refine ⟨?_, ?_, ?_⟩
  · rw [GetUpdate_eq, hrun]
    simp
  · intro k hk r0 hk0
    obtain ⟨new, hu, _, hx⟩ := roomLoop_exact E pre
      { cw := { cw with lastId := res.LastId },
        hist := hist ++ [Event.get_update cw.token cw.lastId], updates := [] }
      (List.Nodup.of_append_left hnd) (by rw [hpre])
    rw [hpre] at hu hx
    simp only [List.nil_append] at hu
    rw [hl2.frame k (fun h => (List.disjoint_of_nodup_append hnd) hk h), hu]
    exact hx k hk r0 hk0
  · intro u hu
    refine ⟨hraised u hu, ?_⟩
    intro E2 n v hv hsame
    obtain ⟨r, h1, h2, _⟩ := hraised u hu
    obtain ⟨r0, h3, h4⟩ := polls_above E2 m2.cw m2.hist n v hv
    rw [hsame.1, h1] at h3
    cases h3
    omega

/-- Witness of C10: rooms `A` and `B` are reported; the scan of `A` accepts the chat 102
and raises the marks of `A` to `(102, 1010)`; the fetch for `B` fails; the call returns
nil with the error, and two later calls against the same server, which delivers the same
batch for `A` again, do not return the chat 102 of room `A`. -/
theorem GetUpdate_error_drops_accepted_witness :
    (GetUpdate failEnv twoClient []).1 = ([], some "boom") ∧
    (roomLoop failEnv ["A"]
      { cw := { twoClient with lastId := "L1" },
        hist := [Event.get_update "tok" "L0"], updates := [] }).2.updates.map
          (fun c => (c.Room, c.Id)) = [("A", 102)] ∧
    (GetUpdate failEnv twoClient []).2.1.rooms "A" =
      some { exRoom with LastUpdate := 1010, receivedId := 102 } ∧
    ("A", 102) ∉ (polls failEnv 2 (GetUpdate failEnv twoClient []).2.1
        (GetUpdate failEnv twoClient []).2.2).1.map (fun c => (c.Room, c.Id)) := by
  have h := GetUpdate_error_drops_accepted failEnv twoClient []
    { LastId := "L1", UpdateInfo := { Num := 2, Rooms := some ["A", "B"] } } ["A"] ["B"]
    (roomLoop failEnv ["A"]
      { cw := { twoClient with lastId := "L1" },
        hist := [Event.get_update "tok" "L0"], updates := [] }).2
    (roomLoop failEnv ["B"] (roomLoop failEnv ["A"]
      { cw := { twoClient with lastId := "L1" },
        hist := [Event.get_update "tok" "L0"], updates := [] }).2).2
    "boom" rfl (by decide) (Prod.ext (by decide) rfl) (Prod.ext (by decide) rfl)
  refine ⟨by decide, by decide, by decide, ?_⟩
  intro hmem
  obtain ⟨v, hv, hvu⟩ := List.mem_map.1 hmem
  rw [h.1] at hv
  exact (h.2.2 { Id := 102, Message := "c", Person := some exPerson, Room := "A", Time := 1010 }
    (by decide)).2 failEnv 2 v hv ⟨congrArg Prod.fst hvu, congrArg Prod.snd hvu⟩

end GoChatwork
